import Mathlib

/-!
# A sharded hash map with chained buckets (`chm::hash_map`)

Shallow embedding of `include/concurrent_hash_map.hpp`.

* A bucket owns a sentinel node `head_`; the data nodes hang off `head_->next_`.  A value of
  `hash_node_ptr` is what a `hash_node<K, V> *` link of that chain holds: `nullptr`, a node
  (with the chain owned through its own `next_`), or the *indeterminate* value of a `next_`
  member that no constructor has written.  `hash_node()` sets `next_(nullptr)`;
  `hash_node(K key, V value)` initialises `key_` and `value_` only.
* Every loop of the bucket that tests or dereferences a link (`while (curr ...)`) is a
  recursion over the chain.  Testing an indeterminate link has no defined outcome, which is
  `none`; copying one (`prev->next_ = curr->next_`) just carries it along.
* The state-passing functions run one operation at a time.  What a call does to the
  `std::shared_timed_mutex` of a bucket and to its chain is recorded separately, in program
  order, as the events of the call (`insert_events`, `find_events`, `remove_events`,
  `clear_events`).
* `size_t` values are natural numbers; `%` by zero and an out-of-range subscript have no
  defined outcome (`none`).  The loop counters of `hash_map` are `int`s compared against a
  `size_t`, so a table of more than `int_max` buckets overflows the counter.
-/

namespace chm

/-- The value of a `hash_node<K, V> *` link of a bucket chain, together with the nodes owned
through it. -/
inductive hash_node_ptr (K V : Type) where
  /-- The link is `nullptr`. -/
  | nullptr : hash_node_ptr K V
  /-- The link was never written: `hash_node(K key, V value)` leaves `next_` uninitialised. -/
  | indeterminate : hash_node_ptr K V
  /-- The link points to a node holding `key_`, `value_` and its own link `next_`. -/
  | node (key_ : K) (value_ : V) (next_ : hash_node_ptr K V) : hash_node_ptr K V
  deriving DecidableEq, Repr

namespace hash_node_ptr

variable {K V : Type}

/-- The `(key, value)` pairs of the nodes of a chain, in chain order. -/
def entries : hash_node_ptr K V → List (K × V)
  | nullptr => []
  | indeterminate => []
  | node k v nx => (k, v) :: entries nx

/-- The keys of the nodes of a chain, in chain order. -/
def keys (c : hash_node_ptr K V) : List K := c.entries.map Prod.fst

/-- The loop and the final `if` of `hash_bucket::insert`, started with `curr` at this link:
walk while `curr and curr->key() != key`; on `not curr` hang
`new hash_node<K, V>(key, value)` on `prev->next_`, else `curr->set_value(value)`. -/
def insert [DecidableEq K] (key : K) (value : V) : hash_node_ptr K V → Option (hash_node_ptr K V)
  | nullptr => some (node key value indeterminate)
  | indeterminate => none
  | node k v nx =>
    if k ≠ key then (insert key value nx).map (node k v)
    else some (node k value nx)

/-- The loop of `hash_bucket::find`, started with `curr` at this link; `value` is the caller's
out-parameter, returned next to `result`. -/
def find [DecidableEq K] (key : K) (value : V) : hash_node_ptr K V → Option (Bool × V)
  | nullptr => some (false, value)
  | indeterminate => none
  | node k v nx =>
    if k = key then some (true, v)
    else find key value nx

/-- The loop and the final `if` of `hash_bucket::remove`, started with `curr` at this link:
on a match `prev->next_ = curr->next_; delete curr;`. -/
def remove [DecidableEq K] (key : K) : hash_node_ptr K V → Option (hash_node_ptr K V)
  | nullptr => some nullptr
  | indeterminate => none
  | node k v nx =>
    if k ≠ key then (remove key nx).map (node k v)
    else some nx

/-- The loop of `hash_bucket::clear`, started with `curr` at this link: each round unlinks and
deletes the first node, `prev` staying at the sentinel. -/
def clear : hash_node_ptr K V → Option (hash_node_ptr K V)
  | nullptr => some nullptr
  | indeterminate => none
  | node _ _ nx => clear nx

end hash_node_ptr

/-- The class `hash_bucket<K, V>`: the sentinel `head_` (built by `hash_node()`, so its `next_`
starts as `nullptr`), represented by the link `head_->next_`. -/
structure hash_bucket (K V : Type) where
  /-- The link `head_->next_`. -/
  head_next_ : hash_node_ptr K V
  deriving DecidableEq, Repr

namespace hash_bucket

variable {K V : Type}

/-- The constructor `hash_bucket()`: `head_ = new hash_node<K, V>()`. -/
def construct : hash_bucket K V := ⟨hash_node_ptr.nullptr⟩

/-- The method `hash_bucket::insert`. -/
def insert [DecidableEq K] (b : hash_bucket K V) (key : K) (value : V) :
    Option (hash_bucket K V) :=
  (b.head_next_.insert key value).map hash_bucket.mk

/-- The method `hash_bucket::find`. -/
def find [DecidableEq K] (b : hash_bucket K V) (key : K) (value : V) : Option (Bool × V) :=
  b.head_next_.find key value

/-- The method `hash_bucket::remove`. -/
def remove [DecidableEq K] (b : hash_bucket K V) (key : K) : Option (hash_bucket K V) :=
  (b.head_next_.remove key).map hash_bucket.mk

/-- The method `hash_bucket::clear`. -/
def clear (b : hash_bucket K V) : Option (hash_bucket K V) :=
  b.head_next_.clear.map hash_bucket.mk

/-- The `(key, value)` pairs stored in the bucket, in chain order. -/
def entries (b : hash_bucket K V) : List (K × V) := b.head_next_.entries

/-- The keys stored in the bucket, in chain order. -/
def keys (b : hash_bucket K V) : List K := b.head_next_.keys

end hash_bucket

/-- The largest value of the `int` loop counters of `hash_map` (32-bit `int`). -/
def int_max : Nat := 2147483647

/-- The class `hash_map<K, V, F>`: the bucket table, the hash functor and the table size. -/
structure hash_map (K V : Type) where
  /-- The array `hash_table_` of buckets. -/
  hash_table_ : List (hash_bucket K V)
  /-- The functor `hash_func_`, returning a `size_t`. -/
  hash_func_ : K → Nat
  /-- The member `hash_size_`. -/
  hash_size_ : Nat

/-- The constant `hash_map::hash_size_default`. -/
def hash_size_default : Nat := 1031

namespace hash_map

variable {K V : Type}

/-- The constructor `hash_map(size_t hash_size)`: `hash_size` fresh buckets, filled by a loop
whose `int` counter is incremented once per bucket. -/
def construct (hash_func : K → Nat) (hash_size : Nat) : Option (hash_map K V) :=
  if hash_size ≤ int_max then
    some ⟨List.replicate hash_size hash_bucket.construct, hash_func, hash_size⟩
  else none

/-- The expression `hash_func_(key) % hash_size_`. -/
def hash_value (m : hash_map K V) (key : K) : Option Nat :=
  if m.hash_size_ = 0 then none else some (m.hash_func_ key % m.hash_size_)

/-- The method `hash_map::insert`. -/
def insert [DecidableEq K] (m : hash_map K V) (key : K) (value : V) : Option (hash_map K V) :=
  (m.hash_value key).bind fun i =>
    (m.hash_table_[i]?).bind fun b =>
      (b.insert key value).map fun b1 => { m with hash_table_ := m.hash_table_.set i b1 }

/-- The method `hash_map::find`; `value` is the caller's out-parameter. -/
def find [DecidableEq K] (m : hash_map K V) (key : K) (value : V) : Option (Bool × V) :=
  (m.hash_value key).bind fun i =>
    (m.hash_table_[i]?).bind fun b => b.find key value

/-- The method `hash_map::remove`. -/
def remove [DecidableEq K] (m : hash_map K V) (key : K) : Option (hash_map K V) :=
  (m.hash_value key).bind fun i =>
    (m.hash_table_[i]?).bind fun b =>
      (b.remove key).map fun b1 => { m with hash_table_ := m.hash_table_.set i b1 }

/-- The loop of `hash_map::clear` with `n` rounds left and the counter at `i`:
`(hash_table_[i])->clear()`, then `++i`. -/
def clear_loop : Nat → Nat → List (hash_bucket K V) → Option (List (hash_bucket K V))
  | 0, _, t => some t
  | n + 1, i, t =>
    (t[i]?).bind fun b =>
      b.clear.bind fun b1 => clear_loop n (i + 1) (t.set i b1)

/-- The method `hash_map::clear`. -/
def clear (m : hash_map K V) : Option (hash_map K V) :=
  if m.hash_size_ ≤ int_max then
    (clear_loop m.hash_size_ 0 m.hash_table_).map fun t => { m with hash_table_ := t }
  else none

end hash_map

/-- A state-changing call on a map. -/
inductive map_op (K V : Type) where
  /-- The call `insert(key, value)`. -/
  | insert (key : K) (value : V) : map_op K V
  /-- The call `remove(key)`. -/
  | remove (key : K) : map_op K V
  /-- The call `clear()`. -/
  | clear : map_op K V

namespace hash_map

variable {K V : Type}

/-- One state-changing call applied to a map. -/
def step [DecidableEq K] (m : hash_map K V) : map_op K V → Option (hash_map K V)
  | map_op.insert k v => m.insert k v
  | map_op.remove k => m.remove k
  | map_op.clear => m.clear

/-- A sequence of state-changing calls, applied from left to right. -/
def run [DecidableEq K] (m : hash_map K V) : List (map_op K V) → Option (hash_map K V)
  | [] => some m
  | o :: os => (m.step o).bind fun m1 => run m1 os

/-- The maps reachable from `hash_map(hash_size)` by calls that each complete. -/
def reachable [DecidableEq K] (hash_func : K → Nat) (hash_size : Nat) (m : hash_map K V) : Prop :=
  ∃ m0 ops, construct hash_func hash_size = some m0 ∧ run m0 ops = some m

end hash_map

/-- The hash `std::hash<int>` as libstdc++ and libc++ define it: the key converted to
`size_t`. -/
def std_hash_int (k : Int) : Nat := (k % 18446744073709551616).toNat

namespace hash_map

variable {K V : Type}

/-- The table has `hash_size_` buckets and the `int` loop counters can count them. -/
def wf (m : hash_map K V) : Prop :=
  m.hash_table_.length = m.hash_size_ ∧ m.hash_size_ ≤ int_max

/-- Every key stored in the bucket at subscript `i` has `hash_func_(key) % hash_size_ = i`. -/
def placed (m : hash_map K V) : Prop :=
  ∀ (i : Nat) (b : hash_bucket K V), m.hash_table_[i]? = some b →
    ∀ k ∈ b.keys, m.hash_func_ k % m.hash_size_ = i

/-- No bucket of the table stores a key twice. -/
def nodup_keys (m : hash_map K V) : Prop :=
  ∀ b ∈ m.hash_table_, b.keys.Nodup

/-- The map as `test_chm` leaves it after its first three calls on the map of `main`:
`hash_map<int, int>` with the default size, then `insert(10, 100)`, `insert(20, 200)`,
`insert(30, 300)`. -/
def test_map : Option (hash_map Int Int) :=
  (construct std_hash_int hash_size_default).bind fun m =>
    (m.insert 10 100).bind fun m => (m.insert 20 200).bind fun m => m.insert 30 300

end hash_map

/-- The reference map of the refinement claim: a partial function from keys to values. -/
def ref_map (K V : Type) : Type := K → Option V

namespace ref_map

variable {K V : Type}

/-- The reference map with no key (`clear = empty`, and the map a sequence starts from). -/
def empty : ref_map K V := fun _ => none

/-- The reference `insert = set`: the key now maps to the value. -/
def set [DecidableEq K] (r : ref_map K V) (key : K) (value : V) : ref_map K V :=
  fun k => if k = key then some value else r k

/-- The reference `remove = erase`: the key now maps to nothing. -/
def erase [DecidableEq K] (r : ref_map K V) (key : K) : ref_map K V :=
  fun k => if k = key then none else r k

/-- One call applied to the reference map. -/
def step [DecidableEq K] (r : ref_map K V) : map_op K V → ref_map K V
  | map_op.insert k v => r.set k v
  | map_op.remove k => r.erase k
  | map_op.clear => empty

/-- A sequence of calls applied to the reference map, from left to right. -/
def run [DecidableEq K] (r : ref_map K V) : List (map_op K V) → ref_map K V
  | [] => r
  | o :: os => run (r.step o) os

/-- The lookup of a key in the reference map, in the shape of the result of `find`: the flag
and the value, the caller's `value` kept when the key maps to nothing. -/
def lookup (r : ref_map K V) (key : K) (value : V) : Bool × V :=
  match r key with
  | some v => (true, v)
  | none => (false, value)

end ref_map

/-- How a guard holds the `std::shared_timed_mutex` of a bucket: `std::shared_lock` holds it
shared, `std::unique_lock` holds it exclusively. -/
inductive lock_mode where
  /-- Held by a `std::shared_lock`. -/
  | shared : lock_mode
  /-- Held by a `std::unique_lock`. -/
  | exclusive : lock_mode
  deriving DecidableEq, Repr

/-- What a bucket method does, in program order, to its own `mutex_` and to its own chain. -/
inductive bucket_event where
  /-- The guard `lock(mutex_)` is constructed: the mutex is acquired in this mode. -/
  | lock (mode : lock_mode) : bucket_event
  /-- The guard goes out of scope at the end of the method: the mutex is released. -/
  | unlock : bucket_event
  /-- A link, a key or a value of the chain is read. -/
  | read : bucket_event
  /-- A link or a value of the chain is written, or a node of the chain is deleted. -/
  | write : bucket_event
  deriving DecidableEq, Repr

namespace hash_node_ptr

variable {K V : Type}

/-- The events of `hash_bucket::insert` from the first test of its loop on, with `curr` at
this link: `curr->key()` is a read, `curr = curr->next_` is a read, `prev->next_ = new ...` and
`curr->set_value(value)` are writes, and the method then returns.  Nothing is recorded from
the test of an indeterminate link on. -/
def insert_events [DecidableEq K] (key : K) : hash_node_ptr K V → List bucket_event
  | nullptr => [bucket_event.write, bucket_event.unlock]
  | indeterminate => []
  | node k _ nx =>
    bucket_event.read ::
      (if k ≠ key then bucket_event.read :: insert_events key nx
       else [bucket_event.write, bucket_event.unlock])

/-- The events of `hash_bucket::find` from the first test of its loop on, with `curr` at this
link: `curr->key()`, `curr->value()` and `curr = curr->next_` are reads. -/
def find_events [DecidableEq K] (key : K) : hash_node_ptr K V → List bucket_event
  | nullptr => [bucket_event.unlock]
  | indeterminate => []
  | node k _ nx =>
    bucket_event.read ::
      (if k = key then [bucket_event.read, bucket_event.unlock]
       else bucket_event.read :: find_events key nx)

/-- The events of `hash_bucket::remove` from the first test of its loop on, with `curr` at
this link: on a match `prev->next_ = curr->next_` is a read and a write and `delete curr` is a
write. -/
def remove_events [DecidableEq K] (key : K) : hash_node_ptr K V → List bucket_event
  | nullptr => [bucket_event.unlock]
  | indeterminate => []
  | node k _ nx =>
    bucket_event.read ::
      (if k ≠ key then bucket_event.read :: remove_events key nx
       else [bucket_event.read, bucket_event.write, bucket_event.write, bucket_event.unlock])

/-- The events of `hash_bucket::clear` from the first test of its loop on, with `curr` at this
link: each round does `prev->next_ = curr->next_` (a read and a write), `delete curr` (a
write) and `curr = prev->next_` (a read). -/
def clear_events : hash_node_ptr K V → List bucket_event
  | nullptr => [bucket_event.unlock]
  | indeterminate => []
  | node _ _ nx =>
    bucket_event.read :: bucket_event.write :: bucket_event.write :: bucket_event.read ::
      clear_events nx

end hash_node_ptr

namespace hash_bucket

variable {K V : Type}

/-- The events of `hash_bucket::insert`: the `std::unique_lock` guard, the read of
`head_->next_`, then the loop and the final `if`. -/
def insert_events [DecidableEq K] (b : hash_bucket K V) (key : K) : List bucket_event :=
  bucket_event.lock lock_mode.exclusive :: bucket_event.read ::
    b.head_next_.insert_events key

/-- The events of `hash_bucket::find`: the `std::shared_lock` guard, the read of
`head_->next_`, then the loop. -/
def find_events [DecidableEq K] (b : hash_bucket K V) (key : K) : List bucket_event :=
  bucket_event.lock lock_mode.shared :: bucket_event.read :: b.head_next_.find_events key

/-- The events of `hash_bucket::remove`: the `std::unique_lock` guard, the read of
`head_->next_`, then the loop and the final `if`. -/
def remove_events [DecidableEq K] (b : hash_bucket K V) (key : K) : List bucket_event :=
  bucket_event.lock lock_mode.exclusive :: bucket_event.read ::
    b.head_next_.remove_events key

/-- The events of `hash_bucket::clear`: the `std::unique_lock` guard, the read of
`head_->next_`, then the loop. -/
def clear_events (b : hash_bucket K V) : List bucket_event :=
  bucket_event.lock lock_mode.exclusive :: bucket_event.read :: b.head_next_.clear_events

end hash_bucket

namespace hash_map

variable {K V : Type}

/-- The events of a bucket method called on `hash_table_[i]`, each with the subscript of the
bucket whose mutex and chain it concerns. -/
def at_bucket (i : Nat) (es : List bucket_event) : List (Nat × bucket_event) :=
  es.map fun e => (i, e)

/-- The events of `hash_map::insert`: those of `hash_table_[hash_value]->insert(key, value)`;
the subscript is computed and the table read without any lock. -/
def insert_events [DecidableEq K] (m : hash_map K V) (key : K) : List (Nat × bucket_event) :=
  match m.hash_value key with
  | none => []
  | some i =>
    match m.hash_table_[i]? with
    | none => []
    | some b => at_bucket i (b.insert_events key)

/-- The events of `hash_map::find`: those of `hash_table_[hash_value]->find(key, value)`. -/
def find_events [DecidableEq K] (m : hash_map K V) (key : K) : List (Nat × bucket_event) :=
  match m.hash_value key with
  | none => []
  | some i =>
    match m.hash_table_[i]? with
    | none => []
    | some b => at_bucket i (b.find_events key)

/-- The events of `hash_map::remove`: those of `hash_table_[hash_value]->remove(key)`. -/
def remove_events [DecidableEq K] (m : hash_map K V) (key : K) : List (Nat × bucket_event) :=
  match m.hash_value key with
  | none => []
  | some i =>
    match m.hash_table_[i]? with
    | none => []
    | some b => at_bucket i (b.remove_events key)

/-- The events of the loop of `hash_map::clear` with `n` rounds left and the counter at `i`:
those of `(hash_table_[i])->clear()`, then, when that call returns, those of the later
rounds. -/
def clear_loop_events : Nat → Nat → List (hash_bucket K V) → List (Nat × bucket_event)
  | 0, _, _ => []
  | n + 1, i, t =>
    match t[i]? with
    | none => []
    | some b =>
      at_bucket i b.clear_events ++
        (match b.clear with
         | none => []
         | some b1 => clear_loop_events n (i + 1) (t.set i b1))

/-- The events of `hash_map::clear`: the rounds of its loop up to the one in which the `int`
counter would overflow. -/
def clear_events (m : hash_map K V) : List (Nat × bucket_event) :=
  clear_loop_events (min m.hash_size_ (int_max + 1)) 0 m.hash_table_

end hash_map

/-- The locks a thread holds: the subscript of the bucket and the mode, for each. -/
abbrev held_locks : Type := List (Nat × lock_mode)

/-- The lock discipline, checked at one event against the locks held before it; `none` when
the event breaks it.  A mutex is acquired only while no lock at all is held, so that two are
never held together; a mutex is released only by its holder; the chain of bucket `i` is read
only while the mutex of bucket `i` is held, and written only while it is held exclusively. -/
def lock_step (held : held_locks) : Nat × bucket_event → Option held_locks
  | (i, bucket_event.lock mode) => if held = [] then some [(i, mode)] else none
  | (i, bucket_event.unlock) =>
    if held.any (fun h => decide (h.1 = i)) then some (held.filter fun h => decide (h.1 ≠ i))
    else none
  | (i, bucket_event.read) =>
    if held.any (fun h => decide (h.1 = i)) then some held else none
  | (i, bucket_event.write) =>
    if (i, lock_mode.exclusive) ∈ held then some held else none

/-- The lock discipline checked along a sequence of events, from the locks held at its start;
the result is the locks held at its end. -/
def lock_run (held : held_locks) : List (Nat × bucket_event) → Option held_locks
  | [] => some held
  | e :: es => (lock_step held e).bind fun held1 => lock_run held1 es

/-- A thread in the middle of its calls: the locks it holds and the events it has still to
perform. -/
structure thread where
  /-- The locks the thread holds. -/
  held : held_locks
  /-- The events the thread has still to perform, the next one first. -/
  todo : List (Nat × bucket_event)

/-- Modelled from the spec: the blocking rule of the reader/writer lock
(`std::shared_timed_mutex`, which is not part of the repository).  Acquiring a lock
exclusively waits while any other thread holds it; acquiring it shared waits only while another
thread holds it exclusively. -/
def waits_for (wanted holder : lock_mode) : Bool :=
  match wanted, holder with
  | lock_mode.exclusive, _ => true
  | lock_mode.shared, lock_mode.exclusive => true
  | lock_mode.shared, lock_mode.shared => false

/-- Thread `n` of the system waits for thread `n1`: its next event acquires the mutex of a
bucket that thread `n1` holds in a mode the acquisition has to wait for. -/
def blocked_by (ts : List thread) (n n1 : Nat) : Prop :=
  n ≠ n1 ∧ ∃ t t1 i wanted rest holder, ts[n]? = some t ∧ ts[n1]? = some t1 ∧
    t.todo = (i, bucket_event.lock wanted) :: rest ∧ (i, holder) ∈ t1.held ∧
    waits_for wanted holder = true

/-- A deadlock among the threads of the system: a non-empty set of threads each of which waits
for a thread of the set. -/
def deadlocked (ts : List thread) : Prop :=
  ∃ s : List Nat, s ≠ [] ∧ ∀ n ∈ s, ∃ n1 ∈ s, blocked_by ts n n1

end chm

/-! ## Theorems -/

set_option maxRecDepth 100000

namespace chm

namespace hash_node_ptr

variable {K V : Type}

theorem keys_node (k : K) (v : V) (nx : hash_node_ptr K V) :
    (node k v nx).keys = k :: nx.keys := rfl

theorem mem_keys_of_insert [DecidableEq K] (key : K) (value : V) :
    ∀ (c c1 : hash_node_ptr K V), insert key value c = some c1 →
      ∀ k, k ∈ c1.keys → k ∈ c.keys ∨ k = key
  | nullptr, c1, h, k, hk => by
    simp only [insert, Option.some.injEq] at h
    subst h
    simp [keys, entries] at hk
    exact Or.inr hk
  | indeterminate, c1, h, k, hk => by simp [insert] at h
  | node k0 v0 nx, c1, h, k, hk => by
    by_cases hne : k0 = key
    · simp only [insert, hne, ne_eq, not_true_eq_false, if_false, Option.some.injEq] at h
      subst h
      left
      simpa [keys, entries, hne] using hk
    · simp only [insert, ne_eq, hne, not_false_eq_true, if_true, Option.map_eq_some'] at h
      obtain ⟨c2, h2, rfl⟩ := h
      rw [keys_node] at hk ⊢
      rcases List.mem_cons.mp hk with rfl | hk2
      · exact Or.inl (List.mem_cons_self _ _)
      · rcases mem_keys_of_insert key value nx c2 h2 k hk2 with h3 | h3
        · exact Or.inl (List.mem_cons_of_mem _ h3)
        · exact Or.inr h3

theorem nodup_keys_of_insert [DecidableEq K] (key : K) (value : V) :
    ∀ (c c1 : hash_node_ptr K V), insert key value c = some c1 →
      c.keys.Nodup → c1.keys.Nodup
  | nullptr, c1, h, _ => by
    simp only [insert, Option.some.injEq] at h
    subst h
    simp [keys, entries]
  | indeterminate, c1, h, _ => by simp [insert] at h
  | node k0 v0 nx, c1, h, hnd => by
    by_cases hne : k0 = key
    · simp only [insert, hne, ne_eq, not_true_eq_false, if_false, Option.some.injEq] at h
      subst h
      simpa [keys, entries, hne] using hnd
    · simp only [insert, ne_eq, hne, not_false_eq_true, if_true, Option.map_eq_some'] at h
      obtain ⟨c2, h2, rfl⟩ := h
      rw [keys_node] at hnd ⊢
      rw [List.nodup_cons] at hnd ⊢
      refine ⟨fun hmem => ?_, nodup_keys_of_insert key value nx c2 h2 hnd.2⟩
      rcases mem_keys_of_insert key value nx c2 h2 k0 hmem with h3 | h3
      · exact hnd.1 h3
      · exact hne h3

theorem sublist_keys_of_remove [DecidableEq K] (key : K) :
    ∀ (c c1 : hash_node_ptr K V), remove key c = some c1 → c1.keys.Sublist c.keys
  | nullptr, c1, h => by
    simp only [remove, Option.some.injEq] at h
    subst h
    exact List.Sublist.refl _
  | indeterminate, c1, h => by simp [remove] at h
  | node k0 v0 nx, c1, h => by
    by_cases hne : k0 = key
    · simp only [remove, hne, ne_eq, not_true_eq_false, if_false, Option.some.injEq] at h
      subst h
      rw [keys_node]
      exact List.sublist_cons_self _ _
    · simp only [remove, ne_eq, hne, not_false_eq_true, if_true, Option.map_eq_some'] at h
      obtain ⟨c2, h2, rfl⟩ := h
      rw [keys_node, keys_node]
      exact (sublist_keys_of_remove key nx c2 h2).cons₂ _

theorem eq_nullptr_of_clear :
    ∀ (c c1 : hash_node_ptr K V), clear c = some c1 → c1 = nullptr
  | nullptr, c1, h => by
    simp only [clear, Option.some.injEq] at h
    exact h.symm
  | indeterminate, c1, h => by simp [clear] at h
  | node _ _ nx, c1, h => by
    simp only [clear] at h
    exact eq_nullptr_of_clear nx c1 h

end hash_node_ptr

namespace hash_bucket

variable {K V : Type}

theorem mem_keys_of_bucket_insert [DecidableEq K] {b b1 : hash_bucket K V} {key : K} {value : V}
    (h : b.insert key value = some b1) {k : K} (hk : k ∈ b1.keys) : k ∈ b.keys ∨ k = key := by
  simp only [insert, Option.map_eq_some'] at h
  obtain ⟨c, hc, rfl⟩ := h
  exact hash_node_ptr.mem_keys_of_insert key value _ _ hc k hk

theorem nodup_keys_of_bucket_insert [DecidableEq K] {b b1 : hash_bucket K V} {key : K} {value : V}
    (h : b.insert key value = some b1) (hb : b.keys.Nodup) : b1.keys.Nodup := by
  simp only [insert, Option.map_eq_some'] at h
  obtain ⟨c, hc, rfl⟩ := h
  exact hash_node_ptr.nodup_keys_of_insert key value _ _ hc hb

theorem sublist_keys_of_bucket_remove [DecidableEq K] {b b1 : hash_bucket K V} {key : K}
    (h : b.remove key = some b1) : b1.keys.Sublist b.keys := by
  simp only [remove, Option.map_eq_some'] at h
  obtain ⟨c, hc, rfl⟩ := h
  exact hash_node_ptr.sublist_keys_of_remove key _ _ hc

theorem eq_construct_of_clear {b b1 : hash_bucket K V} (h : b.clear = some b1) :
    b1 = construct := by
  simp only [clear, Option.map_eq_some'] at h
  obtain ⟨c, hc, rfl⟩ := h
  rw [hash_node_ptr.eq_nullptr_of_clear _ _ hc]
  rfl

theorem clear_construct : (construct : hash_bucket K V).clear = some construct := rfl

theorem keys_construct : (construct : hash_bucket K V).keys = [] := rfl

end hash_bucket

namespace hash_map

variable {K V : Type}

theorem hash_value_eq_some {m : hash_map K V} {key : K} {i : Nat}
    (h : m.hash_value key = some i) :
    m.hash_size_ ≠ 0 ∧ i = m.hash_func_ key % m.hash_size_ := by
  unfold hash_value at h
  split at h
  · cases h
  · rename_i h0
    exact ⟨h0, (Option.some.inj h).symm⟩

theorem hash_value_of_pos (m : hash_map K V) (key : K) (h : 1 ≤ m.hash_size_) :
    m.hash_value key = some (m.hash_func_ key % m.hash_size_) := by
  unfold hash_value
  rw [if_neg (by omega)]

theorem insert_eq_some [DecidableEq K] {m m1 : hash_map K V} {key : K} {value : V}
    (h : m.insert key value = some m1) :
    ∃ b b1, m.hash_size_ ≠ 0 ∧
      m.hash_table_[m.hash_func_ key % m.hash_size_]? = some b ∧
      b.insert key value = some b1 ∧
      m1 = { m with hash_table_ :=
        m.hash_table_.set (m.hash_func_ key % m.hash_size_) b1 } := by
  simp only [insert, Option.bind_eq_some, Option.map_eq_some'] at h
  obtain ⟨i, hi, b, hb, b1, hb1, rfl⟩ := h
  obtain ⟨h0, rfl⟩ := hash_value_eq_some hi
  exact ⟨b, b1, h0, hb, hb1, rfl⟩

theorem remove_eq_some [DecidableEq K] {m m1 : hash_map K V} {key : K}
    (h : m.remove key = some m1) :
    ∃ b b1, m.hash_size_ ≠ 0 ∧
      m.hash_table_[m.hash_func_ key % m.hash_size_]? = some b ∧
      b.remove key = some b1 ∧
      m1 = { m with hash_table_ :=
        m.hash_table_.set (m.hash_func_ key % m.hash_size_) b1 } := by
  simp only [remove, Option.bind_eq_some, Option.map_eq_some'] at h
  obtain ⟨i, hi, b, hb, b1, hb1, rfl⟩ := h
  obtain ⟨h0, rfl⟩ := hash_value_eq_some hi
  exact ⟨b, b1, h0, hb, hb1, rfl⟩

theorem clear_loop_eq_some :
    ∀ (n i : Nat) (t t1 : List (hash_bucket K V)), clear_loop n i t = some t1 →
      t1.length = t.length ∧
      ∀ (j : Nat) (b1 : hash_bucket K V), t1[j]? = some b1 →
        ∃ b, t[j]? = some b ∧ (b1 = b ∨ b1 = hash_bucket.construct)
  | 0, i, t, t1, h => by
    simp only [clear_loop, Option.some.injEq] at h
    subst h
    exact ⟨rfl, fun j b1 hj => ⟨b1, hj, Or.inl rfl⟩⟩
  | n + 1, i, t, t1, h => by
    simp only [clear_loop, Option.bind_eq_some] at h
    obtain ⟨b, hb, b0, hb0, hrec⟩ := h
    obtain ⟨hlen, hget⟩ := clear_loop_eq_some n (i + 1) _ t1 hrec
    refine ⟨by rw [hlen, List.length_set], fun j b1 hj => ?_⟩
    obtain ⟨b2, hb2, hor⟩ := hget j b1 hj
    by_cases hij : i = j
    · subst hij
      refine ⟨b, hb, Or.inr ?_⟩
      have hlt : i < t.length := (List.getElem?_eq_some_iff.mp hb).1
      rw [List.getElem?_set_self hlt] at hb2
      cases hb2
      rcases hor with h1 | h1
      · rw [h1]
        exact hash_bucket.eq_construct_of_clear hb0
      · exact h1
    · rw [List.getElem?_set_ne hij] at hb2
      exact ⟨b2, hb2, hor⟩

theorem clear_loop_construct :
    ∀ (n i : Nat) (t : List (hash_bucket K V)),
      (∀ j : Nat, i ≤ j → j < i + n → t[j]? = some hash_bucket.construct) →
      clear_loop n i t = some t
  | 0, i, t, _ => rfl
  | n + 1, i, t, h => by
    have hi : t[i]? = some hash_bucket.construct := h i (Nat.le_refl i) (by omega)
    have hset : t.set i hash_bucket.construct = t := by
      apply List.ext_getElem?
      intro j
      by_cases hij : i = j
      · subst hij
        rw [List.getElem?_set_self (List.getElem?_eq_some_iff.mp hi).1, hi]
      · rw [List.getElem?_set_ne hij]
    simp only [clear_loop, hi, Option.some_bind, hash_bucket.clear_construct, hset]
    exact clear_loop_construct n (i + 1) t (fun j h1 h2 => h j (by omega) (by omega))

theorem forall_getElem?_set {P : Nat → hash_bucket K V → Prop} {t : List (hash_bucket K V)}
    {idx : Nat} {b1 : hash_bucket K V}
    (ht : ∀ (i : Nat) (b : hash_bucket K V), t[i]? = some b → P i b) (h1 : P idx b1) :
    ∀ (i : Nat) (b : hash_bucket K V), (t.set idx b1)[i]? = some b → P i b := by
  intro i b hb
  rw [List.getElem?_set] at hb
  split at hb
  · rename_i hidx
    subst hidx
    split at hb
    · cases hb
      exact h1
    · cases hb
  · exact ht i b hb

theorem nodup_keys_iff (m : hash_map K V) :
    m.nodup_keys ↔
      ∀ (i : Nat) (b : hash_bucket K V), m.hash_table_[i]? = some b → b.keys.Nodup := by
  constructor
  · intro h i b hb
    exact h b (List.mem_iff_getElem?.mpr ⟨i, hb⟩)
  · intro h b hb
    obtain ⟨i, hi⟩ := List.mem_iff_getElem?.mp hb
    exact h i b hi

/-- What every completed call keeps: the functor, the size, the shape of the table, the
placement of the keys and the absence of repeated keys. -/
theorem step_keeps [DecidableEq K] {m m1 : hash_map K V} {o : map_op K V}
    (h : m.step o = some m1) (hw : m.wf) (hp : m.placed) (hn : m.nodup_keys) :
    m1.hash_func_ = m.hash_func_ ∧ m1.hash_size_ = m.hash_size_ ∧
      m1.wf ∧ m1.placed ∧ m1.nodup_keys := by
  rw [nodup_keys_iff] at hn
  rw [nodup_keys_iff]
  cases o with
  | insert key value =>
    obtain ⟨b, b1, _, hb, hb1, rfl⟩ := insert_eq_some h
    refine ⟨rfl, rfl, ⟨by simpa [wf] using hw.1, hw.2⟩, ?_, ?_⟩
    · refine forall_getElem?_set hp ?_
      intro k hk
      rcases hash_bucket.mem_keys_of_bucket_insert hb1 hk with h2 | h2
      · exact hp _ b hb k h2
      · rw [h2]
    · exact forall_getElem?_set hn (hash_bucket.nodup_keys_of_bucket_insert hb1 (hn _ b hb))
  | remove key =>
    obtain ⟨b, b1, _, hb, hb1, rfl⟩ := remove_eq_some h
    have hsub := hash_bucket.sublist_keys_of_bucket_remove hb1
    refine ⟨rfl, rfl, ⟨by simpa [wf] using hw.1, hw.2⟩, ?_, ?_⟩
    · exact forall_getElem?_set hp (fun k hk => hp _ b hb k (hsub.subset hk))
    · exact forall_getElem?_set hn ((hn _ b hb).sublist hsub)
  | clear =>
    simp only [step, clear] at h
    split at h
    · simp only [Option.map_eq_some'] at h
      obtain ⟨t, ht, rfl⟩ := h
      obtain ⟨hlen, hget⟩ := clear_loop_eq_some _ _ _ _ ht
      refine ⟨rfl, rfl, ⟨by simpa [wf, hlen] using hw.1, hw.2⟩, ?_, ?_⟩
      · intro i b1 hb1 k hk
        obtain ⟨b, hb, hor⟩ := hget i b1 hb1
        rcases hor with rfl | rfl
        · exact hp i _ hb k hk
        · simp [hash_bucket.keys_construct] at hk
      · intro i b1 hb1
        obtain ⟨b, hb, hor⟩ := hget i b1 hb1
        rcases hor with rfl | rfl
        · exact hn i _ hb
        · simp [hash_bucket.keys_construct]
    · cases h

theorem construct_eq_some {hash_func : K → Nat} {hash_size : Nat} {m0 : hash_map K V}
    (h : construct hash_func hash_size = some m0) :
    hash_size ≤ int_max ∧
      m0 = ⟨List.replicate hash_size hash_bucket.construct, hash_func, hash_size⟩ := by
  unfold construct at h
  split at h
  · rename_i hle
    exact ⟨hle, (Option.some.inj h).symm⟩
  · cases h

theorem construct_keeps {hash_func : K → Nat} {hash_size : Nat} {m0 : hash_map K V}
    (h : construct hash_func hash_size = some m0) :
    m0.hash_func_ = hash_func ∧ m0.hash_size_ = hash_size ∧
      m0.wf ∧ m0.placed ∧ m0.nodup_keys := by
  obtain ⟨hle, rfl⟩ := construct_eq_some h
  refine ⟨rfl, rfl, ⟨by simp [wf], hle⟩, ?_, ?_⟩
  · intro i b hb k hk
    rw [List.getElem?_replicate] at hb
    split at hb
    · cases hb
      simp [hash_bucket.keys_construct] at hk
    · cases hb
  · intro b hb
    rw [List.eq_of_mem_replicate hb]
    simp [hash_bucket.keys_construct]

theorem run_keeps [DecidableEq K] :
    ∀ (ops : List (map_op K V)) (m m1 : hash_map K V), m.run ops = some m1 →
      m.wf → m.placed → m.nodup_keys →
      m1.hash_func_ = m.hash_func_ ∧ m1.hash_size_ = m.hash_size_ ∧
        m1.wf ∧ m1.placed ∧ m1.nodup_keys
  | [], m, m1, h, hw, hp, hn => by
    simp only [run, Option.some.injEq] at h
    subst h
    exact ⟨rfl, rfl, hw, hp, hn⟩
  | o :: os, m, m1, h, hw, hp, hn => by
    simp only [run, Option.bind_eq_some] at h
    obtain ⟨m2, h2, hrec⟩ := h
    obtain ⟨hf, hs, hw2, hp2, hn2⟩ := step_keeps h2 hw hp hn
    obtain ⟨hf3, hs3, hrest⟩ := run_keeps os m2 m1 hrec hw2 hp2 hn2
    exact ⟨hf3.trans hf, hs3.trans hs, hrest⟩

theorem reachable_keeps [DecidableEq K] {hash_func : K → Nat} {hash_size : Nat}
    {m : hash_map K V} (h : reachable hash_func hash_size m) :
    m.hash_func_ = hash_func ∧ m.hash_size_ = hash_size ∧
      m.wf ∧ m.placed ∧ m.nodup_keys := by
  obtain ⟨m0, ops, hc, hr⟩ := h
  obtain ⟨hf, hs, hw, hp, hn⟩ := construct_keeps hc
  obtain ⟨hf1, hs1, hrest⟩ := run_keeps ops m0 m hr hw hp hn
  exact ⟨hf1.trans hf, hs1.trans hs, hrest⟩

theorem clear_loop_isSome_iff :
    ∀ (n i : Nat) (t : List (hash_bucket K V)),
      (clear_loop n i t).isSome = true ↔
        ∀ j : Nat, i ≤ j → j < i + n → ∃ b, t[j]? = some b ∧ b.clear.isSome = true
  | 0, i, t => by
    simp only [clear_loop, Option.isSome_some, true_iff]
    intro j h1 h2
    omega
  | n + 1, i, t => by
    constructor
    · intro h j h1 h2
      obtain ⟨t1, ht1⟩ := Option.isSome_iff_exists.mp h
      simp only [clear_loop, Option.bind_eq_some] at ht1
      obtain ⟨b, hb, b0, hb0, hrec⟩ := ht1
      by_cases hij : i = j
      · subst hij
        exact ⟨b, hb, by simp [hb0]⟩
      · have hrec2 := (clear_loop_isSome_iff n (i + 1) _).mp
          (Option.isSome_iff_exists.mpr ⟨t1, hrec⟩) j (by omega) (by omega)
        rwa [List.getElem?_set_ne hij] at hrec2
    · intro h
      obtain ⟨b, hb, hbc⟩ := h i (Nat.le_refl i) (by omega)
      obtain ⟨b0, hb0⟩ := Option.isSome_iff_exists.mp hbc
      simp only [clear_loop, hb, Option.some_bind, hb0]
      apply (clear_loop_isSome_iff n (i + 1) _).mpr
      intro j h1 h2
      have hij : i ≠ j := by omega
      rw [List.getElem?_set_ne hij]
      exact h j (by omega) (by omega)

theorem clear_isSome_iff (m : hash_map K V) (hw : m.wf) :
    m.clear.isSome = true ↔ ∀ b ∈ m.hash_table_, b.clear.isSome = true := by
  unfold clear
  rw [if_pos hw.2, Option.isSome_map', clear_loop_isSome_iff]
  constructor
  · intro h b hb
    obtain ⟨j, hj⟩ := List.mem_iff_getElem?.mp hb
    have hlt : j < m.hash_table_.length := (List.getElem?_eq_some_iff.mp hj).1
    obtain ⟨b2, hb2, hc⟩ := h j (Nat.zero_le j) (by rw [← hw.1]; omega)
    rw [hj] at hb2
    cases hb2
    exact hc
  · intro h j _ hj
    have hlt : j < m.hash_table_.length := by rw [hw.1]; omega
    exact ⟨m.hash_table_[j], List.getElem?_eq_getElem hlt, h _ (List.getElem_mem hlt)⟩

theorem getElem?_hash_value (m : hash_map K V) (key : K)
    (hlen : m.hash_table_.length = m.hash_size_) (hpos : 1 ≤ m.hash_size_) :
    ∃ b, m.hash_table_[m.hash_func_ key % m.hash_size_]? = some b := by
  have hlt : m.hash_func_ key % m.hash_size_ < m.hash_table_.length := by
    rw [hlen]
    exact Nat.mod_lt _ (by omega)
  exact ⟨_, List.getElem?_eq_getElem hlt⟩

theorem insert_of_getElem? [DecidableEq K] (m : hash_map K V) (key : K) (value : V)
    (hpos : 1 ≤ m.hash_size_) {b : hash_bucket K V}
    (hb : m.hash_table_[m.hash_func_ key % m.hash_size_]? = some b) :
    m.insert key value = (b.insert key value).map fun b1 =>
      { m with hash_table_ := m.hash_table_.set (m.hash_func_ key % m.hash_size_) b1 } := by
  simp only [insert, hash_value_of_pos m key hpos, Option.some_bind, hb]

theorem find_of_getElem? [DecidableEq K] (m : hash_map K V) (key : K) (value : V)
    (hpos : 1 ≤ m.hash_size_) {b : hash_bucket K V}
    (hb : m.hash_table_[m.hash_func_ key % m.hash_size_]? = some b) :
    m.find key value = b.find key value := by
  simp only [find, hash_value_of_pos m key hpos, Option.some_bind, hb]

theorem remove_of_getElem? [DecidableEq K] (m : hash_map K V) (key : K)
    (hpos : 1 ≤ m.hash_size_) {b : hash_bucket K V}
    (hb : m.hash_table_[m.hash_func_ key % m.hash_size_]? = some b) :
    m.remove key = (b.remove key).map fun b1 =>
      { m with hash_table_ := m.hash_table_.set (m.hash_func_ key % m.hash_size_) b1 } := by
  simp only [remove, hash_value_of_pos m key hpos, Option.some_bind, hb]

open hash_node_ptr

/-- C1 (insert then find), evaluated on the map `test_chm` has built with its three inserts.
Keys 10 and 1041 share the bucket at subscript 10, whose chain is the one node of key 10 with
a `next_` that `hash_node(K key, V value)` never wrote.  `insert(1041, 7)` walks past that node
and tests this link, so neither the insert nor the `find(1041)` after it has a defined
result. -/
theorem insert_then_find_colliding_key :
    (test_map.map fun m => m.hash_table_[10]?)
        = some (some ⟨node 10 100 indeterminate⟩) ∧
      (test_map.bind fun m => m.insert 1041 7).isNone = true ∧
      (test_map.bind fun m => (m.insert 1041 7).bind fun m1 => m1.find 1041 0) = none := by
  refine ⟨?_, ?_, ?_⟩ <;> decide

/-- C2 (upsert), evaluated on the default map after `insert(10, 100); remove(10)`.  The remove
copies the never-written `next_` of the deleted node into `head_->next_`, so the first of the
two inserts of key 10 tests an indeterminate link: neither `insert(10, 1)`, `insert(10, 2)` nor
the `find(10)` after them has a defined result. -/
theorem upsert_after_remove :
    (((construct std_hash_int hash_size_default : Option (hash_map Int Int)).bind fun m =>
        (m.insert 10 100).bind fun m => m.remove 10).map fun m => m.hash_table_[10]?)
        = some (some ⟨indeterminate⟩) ∧
      (((construct std_hash_int hash_size_default : Option (hash_map Int Int)).bind fun m =>
        (m.insert 10 100).bind fun m => m.remove 10).bind fun m => m.insert 10 1).isNone = true ∧
      (((construct std_hash_int hash_size_default : Option (hash_map Int Int)).bind fun m =>
        (m.insert 10 100).bind fun m => m.remove 10).bind fun m =>
          (m.insert 10 1).bind fun m => (m.insert 10 2).bind fun m => m.find 10 0) = none := by
  refine ⟨?_, ?_, ?_⟩ <;> decide

/-- C3 (remove then find), evaluated on the default map: after `insert(10, 100); remove(10)`
the link `head_->next_` of bucket 10 holds the never-written `next_` of the deleted node, and
`find(10)` tests it, so the find has no defined result (the claim says it returns
not found). -/
theorem remove_then_find_default_map :
    ((construct std_hash_int hash_size_default : Option (hash_map Int Int)).bind fun m =>
        (m.insert 10 100).bind fun m => m.remove 10).isSome = true ∧
      ((construct std_hash_int hash_size_default : Option (hash_map Int Int)).bind fun m =>
        (m.insert 10 100).bind fun m => (m.remove 10).bind fun m => m.find 10 0) = none := by
  refine ⟨?_, ?_⟩ <;> decide

/-- C4 (remove of an absent key), evaluated on the map `test_chm` has built with its three
inserts: key 1041 is stored nowhere, it routes to the bucket of key 10, and `remove(1041)`
walks past that node into its never-written `next_`, so the call has no defined result (the
claim says it completes and changes nothing). -/
theorem remove_absent_colliding_key :
    (test_map.map fun m => m.hash_table_.all fun b => decide (1041 ∉ b.keys)) = some true ∧
      (test_map.bind fun m => m.remove 1041).isNone = true := by
  refine ⟨?_, ?_⟩ <;> decide

/-- C5 (clear), evaluated on the map `test_chm` has built with its three inserts: the clear of
bucket 10 unlinks the node of key 10 and then tests the never-written `next_` it copied from
it, so `clear()` has no defined result (the claim says every chain is empty afterwards). -/
theorem clear_after_inserts :
    test_map.isSome = true ∧ (test_map.bind fun m => m.clear).isNone = true := by
  refine ⟨?_, ?_⟩ <;> decide

/-- C7 (single-bucket routing).  On a map whose table has `hash_size_ >= 1` buckets, the
subscript `hash_func_(key) % hash_size_` is below `hash_size_` and names a bucket `b`;
`insert`, `find` and `remove` are exactly the call of the same name on `b`, with the result
stored back at that subscript; a completed `insert` or `remove` leaves the bucket at every
other subscript as it was. -/
theorem single_shard_routing [DecidableEq K] (m : hash_map K V) (key : K)
    (hlen : m.hash_table_.length = m.hash_size_) (hpos : 1 ≤ m.hash_size_) :
    m.hash_func_ key % m.hash_size_ < m.hash_size_ ∧
      ∃ b, m.hash_table_[m.hash_func_ key % m.hash_size_]? = some b ∧
        (∀ value, m.insert key value = (b.insert key value).map fun b1 =>
          { m with hash_table_ := m.hash_table_.set (m.hash_func_ key % m.hash_size_) b1 }) ∧
        (∀ value, m.find key value = b.find key value) ∧
        (m.remove key = (b.remove key).map fun b1 =>
          { m with hash_table_ := m.hash_table_.set (m.hash_func_ key % m.hash_size_) b1 }) ∧
        (∀ value m1, m.insert key value = some m1 →
          ∀ j : Nat, j ≠ m.hash_func_ key % m.hash_size_ →
            m1.hash_table_[j]? = m.hash_table_[j]?) ∧
        (∀ m1, m.remove key = some m1 →
          ∀ j : Nat, j ≠ m.hash_func_ key % m.hash_size_ →
            m1.hash_table_[j]? = m.hash_table_[j]?) := by
  refine ⟨Nat.mod_lt _ (by omega), ?_⟩
  obtain ⟨b, hb⟩ := getElem?_hash_value m key hlen hpos
  refine ⟨b, hb, ?_, ?_, ?_, ?_, ?_⟩
  · exact fun value => insert_of_getElem? m key value hpos hb
  · exact fun value => find_of_getElem? m key value hpos hb
  · exact remove_of_getElem? m key hpos hb
  · intro value m1 h j hj
    obtain ⟨_, b1, _, _, _, rfl⟩ := insert_eq_some h
    exact List.getElem?_set_ne (Ne.symm hj)
  · intro m1 h j hj
    obtain ⟨_, b1, _, _, _, rfl⟩ := remove_eq_some h
    exact List.getElem?_set_ne (Ne.symm hj)

/-- C7 at a concrete input: three buckets holding keys 1 and 2, and key 4, which routes to
subscript 1. -/
theorem single_shard_routing_witness :
    ([⟨nullptr⟩, ⟨node 1 11 indeterminate⟩, ⟨node 2 20 indeterminate⟩] :
        List (hash_bucket Int Int)).length = 3 ∧
      std_hash_int 4 % 3 = 1 ∧
      std_hash_int 4 % 3 < 3 ∧
      ∃ b, ([⟨nullptr⟩, ⟨node 1 11 indeterminate⟩, ⟨node 2 20 indeterminate⟩] :
          List (hash_bucket Int Int))[std_hash_int 4 % 3]? = some b ∧
        ∀ value : Int,
          find (⟨[⟨nullptr⟩, ⟨node 1 11 indeterminate⟩, ⟨node 2 20 indeterminate⟩],
            std_hash_int, 3⟩ : hash_map Int Int) 4 value = b.find 4 value :=
  have h := single_shard_routing
    (⟨[⟨nullptr⟩, ⟨node 1 11 indeterminate⟩, ⟨node 2 20 indeterminate⟩],
      std_hash_int, 3⟩ : hash_map Int Int) 4 rfl (by decide)
  ⟨rfl, by decide, h.1, h.2.elim fun b hb => ⟨b, hb.1, hb.2.2.1⟩⟩

/-- C8 (the example scenario), evaluated with the default size and `std::hash<int>`.  The
steps up to `insert(15, 150); find(15)` give what the scenario states.  `remove(10)` then
copies the never-written `next_` of the node of key 10 into `head_->next_` of bucket 10, and
the scenario's `find(10)` tests that link, so it has no defined result (the scenario states
not found).  The closing `clear()` likewise has none: buckets 15, 20 and 30 each hold a node
whose `next_` was never written. -/
theorem example_scenario_default_hash :
    (test_map.bind fun m => m.find 10 0) = some (true, 100) ∧
      (test_map.bind fun m => m.find 15 0) = some (false, 0) ∧
      (test_map.bind fun m => (m.insert 15 150).bind fun m => m.find 15 0)
        = some (true, 150) ∧
      (test_map.bind fun m => (m.insert 15 150).bind fun m => m.remove 10).isSome = true ∧
      (test_map.bind fun m => (m.insert 15 150).bind fun m =>
        (m.remove 10).bind fun m => m.find 10 0) = none ∧
      (test_map.bind fun m => (m.insert 15 150).bind fun m =>
        (m.remove 10).bind fun m => m.clear).isNone = true := by
  refine ⟨?_, ?_, ?_, ?_, ?_, ?_⟩ <;> decide

/-- C9 as stated fails for `hash_size = 0`: the constructor completes (an empty table), and
`insert`, `find` and `remove` then evaluate `hash_func_(key) % 0`. -/
theorem modulo_by_zero_on_empty_table :
    (construct std_hash_int 0 : Option (hash_map Int Int)).isSome = true ∧
      ((construct std_hash_int 0 : Option (hash_map Int Int)).bind fun m =>
        m.hash_value 10) = none ∧
      ((construct std_hash_int 0 : Option (hash_map Int Int)).bind fun m =>
        m.insert 10 100).isNone = true ∧
      ((construct std_hash_int 0 : Option (hash_map Int Int)).bind fun m =>
        m.find 10 0) = none ∧
      ((construct std_hash_int 0 : Option (hash_map Int Int)).bind fun m =>
        m.remove 10).isNone = true := by
  refine ⟨?_, ?_, ?_, ?_, ?_⟩ <;> decide

/-- C9, amended.  For `hash_size >= 1` and a constructor that completes: on the fresh map
`insert`, `find`, `remove` and `clear` all complete; on every map reached from it by completed
calls the subscript `hash_func_(key) % hash_size_` is computed (the modulus is not zero) and
names a bucket of the table, so `insert`, `find` and `remove` complete exactly when the one
bucket call they forward to completes, and `clear` exactly when the `clear` of every bucket
does. -/
theorem operations_complete_of_pos [DecidableEq K] (hash_func : K → Nat) (hash_size : Nat)
    (m0 m : hash_map K V) (ops : List (map_op K V)) (key : K) (value : V)
    (hpos : 1 ≤ hash_size) (hc : construct hash_func hash_size = some m0)
    (hr : m0.run ops = some m) :
    (m0.insert key value).isSome = true ∧ (m0.find key value).isSome = true ∧
      (m0.remove key).isSome = true ∧ m0.clear.isSome = true ∧
      ∃ b, m.hash_value key = some (hash_func key % hash_size) ∧
        hash_func key % hash_size < m.hash_table_.length ∧
        m.hash_table_[hash_func key % hash_size]? = some b ∧
        (m.insert key value).isSome = (b.insert key value).isSome ∧
        (m.find key value).isSome = (b.find key value).isSome ∧
        (m.remove key).isSome = (b.remove key).isSome ∧
        (m.clear.isSome = true ↔ ∀ b1 ∈ m.hash_table_, b1.clear.isSome = true) := by
  obtain ⟨hf, hs, hw, _, _⟩ := reachable_keeps ⟨m0, ops, hc, hr⟩
  obtain ⟨hf0, hs0, hw0, _, _⟩ := construct_keeps hc
  have hfresh : ∀ b0 ∈ m0.hash_table_, b0 = hash_bucket.construct := by
    intro b0 hb0
    rw [(construct_eq_some hc).2] at hb0
    exact List.eq_of_mem_replicate hb0
  have hpos0 : 1 ≤ m0.hash_size_ := by rw [hs0]; exact hpos
  have hposm : 1 ≤ m.hash_size_ := by rw [hs]; exact hpos
  obtain ⟨b0, hb0⟩ := getElem?_hash_value m0 key hw0.1 hpos0
  obtain ⟨b, hb⟩ := getElem?_hash_value m key hw.1 hposm
  have hlt : m.hash_func_ key % m.hash_size_ < m.hash_size_ := Nat.mod_lt _ (by omega)
  have hb0c : b0 = hash_bucket.construct :=
    hfresh b0 (List.mem_iff_getElem?.mpr ⟨_, hb0⟩)
  subst hb0c
  refine ⟨?_, ?_, ?_, ?_, b, ?_, ?_, ?_, ?_, ?_, ?_, clear_isSome_iff m hw⟩
  · rw [insert_of_getElem? m0 key value hpos0 hb0]; rfl
  · rw [find_of_getElem? m0 key value hpos0 hb0]; rfl
  · rw [remove_of_getElem? m0 key hpos0 hb0]; rfl
  · rw [clear_isSome_iff m0 hw0]
    intro b1 hb1
    rw [hfresh b1 hb1]
    rfl
  · rw [hash_value_of_pos m key hposm, hf, hs]
  · rw [hw.1, ← hf, ← hs]; exact hlt
  · rw [← hf, ← hs]; exact hb
  · rw [insert_of_getElem? m key value hposm hb, Option.isSome_map']
  · rw [find_of_getElem? m key value hposm hb]
  · rw [remove_of_getElem? m key hposm hb, Option.isSome_map']

/-- C9, amended, at a concrete input: three buckets, the call `insert(1, 10)`, then key 4,
which routes to the bucket of key 1. -/
theorem operations_complete_of_pos_witness :
    1 ≤ 3 ∧
      (construct std_hash_int 3 : Option (hash_map Int Int))
        = some ⟨List.replicate 3 hash_bucket.construct, std_hash_int, 3⟩ ∧
      run (⟨List.replicate 3 hash_bucket.construct, std_hash_int, 3⟩ : hash_map Int Int)
          [map_op.insert 1 10]
        = some ⟨[⟨nullptr⟩, ⟨node 1 10 indeterminate⟩, ⟨nullptr⟩], std_hash_int, 3⟩ ∧
      (insert (⟨List.replicate 3 hash_bucket.construct, std_hash_int, 3⟩ : hash_map Int Int)
        4 0).isSome = true ∧
      (clear (⟨List.replicate 3 hash_bucket.construct, std_hash_int, 3⟩ :
        hash_map Int Int)).isSome = true ∧
      hash_value (⟨[⟨nullptr⟩, ⟨node 1 10 indeterminate⟩, ⟨nullptr⟩], std_hash_int, 3⟩ :
        hash_map Int Int) 4 = some 1 :=
  have h := operations_complete_of_pos std_hash_int 3
    (⟨List.replicate 3 hash_bucket.construct, std_hash_int, 3⟩ : hash_map Int Int)
    ⟨[⟨nullptr⟩, ⟨node 1 10 indeterminate⟩, ⟨nullptr⟩], std_hash_int, 3⟩
    [map_op.insert 1 10] 4 0 (by decide) rfl rfl
  ⟨by decide, rfl, rfl, h.1, h.2.2.2.1, h.2.2.2.2.elim fun _ hb => hb.1⟩

end hash_map

namespace hash_node_ptr

variable {K V : Type}

theorem entries_node (k : K) (v : V) (nx : hash_node_ptr K V) :
    (node k v nx).entries = (k, v) :: nx.entries := rfl

theorem insert_of_mem_keys [DecidableEq K] (key : K) (value : V) :
    ∀ c : hash_node_ptr K V, key ∈ c.keys →
      ∃ pre v0 post c1, c.entries = pre ++ (key, v0) :: post ∧ key ∉ pre.map Prod.fst ∧
        insert key value c = some c1 ∧ c1.entries = pre ++ (key, value) :: post
  | nullptr, h => by simp [keys, entries] at h
  | indeterminate, h => by simp [keys, entries] at h
  | node k v nx, h => by
    by_cases hk : k = key
    · subst hk
      refine ⟨[], v, nx.entries, node k value nx, rfl, by simp, ?_, rfl⟩
      simp [insert]
    · rw [keys_node] at h
      have hmem : key ∈ nx.keys := by
        rcases List.mem_cons.mp h with h1 | h1
        · exact absurd h1.symm hk
        · exact h1
      obtain ⟨pre, v0, post, c1, he, hpre, hins, he1⟩ := insert_of_mem_keys key value nx hmem
      refine ⟨(k, v) :: pre, v0, post, node k v c1, ?_, ?_, ?_, ?_⟩
      · rw [entries_node, he]
        rfl
      · simp only [List.map_cons, List.mem_cons, not_or]
        exact ⟨fun h2 => hk h2.symm, hpre⟩
      · simp [insert, hk, hins]
      · rw [entries_node, he1]
        rfl

theorem remove_of_mem_keys [DecidableEq K] (key : K) :
    ∀ c : hash_node_ptr K V, key ∈ c.keys →
      ∃ pre v0 post c1, c.entries = pre ++ (key, v0) :: post ∧ key ∉ pre.map Prod.fst ∧
        remove key c = some c1 ∧ c1.entries = pre ++ post
  | nullptr, h => by simp [keys, entries] at h
  | indeterminate, h => by simp [keys, entries] at h
  | node k v nx, h => by
    by_cases hk : k = key
    · subst hk
      refine ⟨[], v, nx.entries, nx, rfl, by simp, ?_, rfl⟩
      simp [remove]
    · rw [keys_node] at h
      have hmem : key ∈ nx.keys := by
        rcases List.mem_cons.mp h with h1 | h1
        · exact absurd h1.symm hk
        · exact h1
      obtain ⟨pre, v0, post, c1, he, hpre, hrem, he1⟩ := remove_of_mem_keys key nx hmem
      refine ⟨(k, v) :: pre, v0, post, node k v c1, ?_, ?_, ?_, ?_⟩
      · rw [entries_node, he]
        rfl
      · simp only [List.map_cons, List.mem_cons, not_or]
        exact ⟨fun h2 => hk h2.symm, hpre⟩
      · simp [remove, hk, hrem]
      · rw [entries_node, he1]
        rfl

theorem mem_entries_of_insert [DecidableEq K] (key : K) (value : V) :
    ∀ (c c1 : hash_node_ptr K V), insert key value c = some c1 →
      ∀ e, e ∈ c1.entries → e ∈ c.entries ∨ e = (key, value)
  | nullptr, c1, h, e, he => by
    simp only [insert, Option.some.injEq] at h
    subst h
    simp [entries] at he
    exact Or.inr he
  | indeterminate, c1, h, e, he => by simp [insert] at h
  | node k0 v0 nx, c1, h, e, he => by
    by_cases hne : k0 = key
    · simp only [insert, hne, ne_eq, not_true_eq_false, if_false, Option.some.injEq] at h
      subst h
      rw [entries_node] at he ⊢
      rcases List.mem_cons.mp he with h1 | h1
      · exact Or.inr h1
      · exact Or.inl (List.mem_cons_of_mem _ h1)
    · simp only [insert, ne_eq, hne, not_false_eq_true, if_true, Option.map_eq_some'] at h
      obtain ⟨c2, h2, rfl⟩ := h
      rw [entries_node] at he ⊢
      rcases List.mem_cons.mp he with h1 | h1
      · exact Or.inl (h1 ▸ List.mem_cons_self _ _)
      · rcases mem_entries_of_insert key value nx c2 h2 e h1 with h3 | h3
        · exact Or.inl (List.mem_cons_of_mem _ h3)
        · exact Or.inr h3

theorem sublist_entries_of_remove [DecidableEq K] (key : K) :
    ∀ (c c1 : hash_node_ptr K V), remove key c = some c1 → c1.entries.Sublist c.entries
  | nullptr, c1, h => by
    simp only [remove, Option.some.injEq] at h
    subst h
    exact List.Sublist.refl _
  | indeterminate, c1, h => by simp [remove] at h
  | node k0 v0 nx, c1, h => by
    by_cases hne : k0 = key
    · simp only [remove, hne, ne_eq, not_true_eq_false, if_false, Option.some.injEq] at h
      subst h
      rw [entries_node]
      exact List.sublist_cons_self _ _
    · simp only [remove, ne_eq, hne, not_false_eq_true, if_true, Option.map_eq_some'] at h
      obtain ⟨c2, h2, rfl⟩ := h
      rw [entries_node, entries_node]
      exact (sublist_entries_of_remove key nx c2 h2).cons₂ _

theorem find_of_mem_keys [DecidableEq K] (key : K) (value : V) :
    ∀ c : hash_node_ptr K V, key ∈ c.keys →
      ∃ pre v0 post, c.entries = pre ++ (key, v0) :: post ∧ key ∉ pre.map Prod.fst ∧
        find key value c = some (true, v0)
  | nullptr, h => by simp [keys, entries] at h
  | indeterminate, h => by simp [keys, entries] at h
  | node k v nx, h => by
    by_cases hk : k = key
    · subst hk
      exact ⟨[], v, nx.entries, rfl, by simp, by simp [find]⟩
    · rw [keys_node] at h
      have hmem : key ∈ nx.keys := by
        rcases List.mem_cons.mp h with h1 | h1
        · exact absurd h1.symm hk
        · exact h1
      obtain ⟨pre, v0, post, he, hpre, hfind⟩ := find_of_mem_keys key value nx hmem
      refine ⟨(k, v) :: pre, v0, post, ?_, ?_, ?_⟩
      · rw [entries_node, he]
        rfl
      · simp only [List.map_cons, List.mem_cons, not_or]
        exact ⟨fun h2 => hk h2.symm, hpre⟩
      · simp [find, hk, hfind]

theorem find_of_remove_ne [DecidableEq K] (key other : K) (value : V) (hne : key ≠ other) :
    ∀ (c c1 : hash_node_ptr K V), remove key c = some c1 →
      find other value c1 = find other value c
  | nullptr, c1, h => by
    simp only [remove, Option.some.injEq] at h
    subst h
    rfl
  | indeterminate, c1, h => by simp [remove] at h
  | node k0 v0 nx, c1, h => by
    by_cases hk : k0 = key
    · simp only [remove, hk, ne_eq, not_true_eq_false, if_false, Option.some.injEq] at h
      subst h
      simp [find, hk, hne]
    · simp only [remove, ne_eq, hk, not_false_eq_true, if_true, Option.map_eq_some'] at h
      obtain ⟨c2, h2, rfl⟩ := h
      by_cases hko : k0 = other
      · simp [find, hko]
      · simp [find, hko, find_of_remove_ne key other value hne nx c2 h2]

end hash_node_ptr

namespace hash_bucket

variable {K V : Type}

theorem mem_keys_of_mem_entries {b : hash_bucket K V} {e : K × V} (h : e ∈ b.entries) :
    e.1 ∈ b.keys :=
  List.mem_map_of_mem Prod.fst h

theorem mem_entries_of_bucket_insert [DecidableEq K] {b b1 : hash_bucket K V} {key : K}
    {value : V} (h : b.insert key value = some b1) {e : K × V} (he : e ∈ b1.entries) :
    e ∈ b.entries ∨ e = (key, value) := by
  simp only [insert, Option.map_eq_some'] at h
  obtain ⟨c, hc, rfl⟩ := h
  exact hash_node_ptr.mem_entries_of_insert key value _ _ hc e he

theorem sublist_entries_of_bucket_remove [DecidableEq K] {b b1 : hash_bucket K V} {key : K}
    (h : b.remove key = some b1) : b1.entries.Sublist b.entries := by
  simp only [remove, Option.map_eq_some'] at h
  obtain ⟨c, hc, rfl⟩ := h
  exact hash_node_ptr.sublist_entries_of_remove key _ _ hc

theorem entries_construct : (construct : hash_bucket K V).entries = [] := rfl

end hash_bucket

namespace hash_map

variable {K V : Type}

/-- Where the entries of a bucket come from after one completed call: from the bucket at the
same subscript, or from the arguments of the call when it is an `insert`. -/
theorem step_entries [DecidableEq K] {m m1 : hash_map K V} {o : map_op K V}
    (h : m.step o = some m1) (j : Nat) (b1 : hash_bucket K V)
    (hb1 : m1.hash_table_[j]? = some b1) :
    ∃ b, m.hash_table_[j]? = some b ∧
      ∀ e ∈ b1.entries, e ∈ b.entries ∨ o = map_op.insert e.1 e.2 := by
  cases o with
  | insert key value =>
    obtain ⟨b, b2, _, hb, hb2, rfl⟩ := insert_eq_some h
    by_cases hj : m.hash_func_ key % m.hash_size_ = j
    · subst hj
      have hlt := (List.getElem?_eq_some_iff.mp hb).1
      simp only [List.getElem?_set_self hlt, Option.some.injEq] at hb1
      subst hb1
      refine ⟨b, hb, fun e he => ?_⟩
      rcases hash_bucket.mem_entries_of_bucket_insert hb2 he with h1 | h1
      · exact Or.inl h1
      · exact Or.inr (by rw [h1])
    · simp only [List.getElem?_set_ne hj] at hb1
      exact ⟨b1, hb1, fun e he => Or.inl he⟩
  | remove key =>
    obtain ⟨b, b2, _, hb, hb2, rfl⟩ := remove_eq_some h
    by_cases hj : m.hash_func_ key % m.hash_size_ = j
    · subst hj
      have hlt := (List.getElem?_eq_some_iff.mp hb).1
      simp only [List.getElem?_set_self hlt, Option.some.injEq] at hb1
      subst hb1
      exact ⟨b, hb, fun e he =>
        Or.inl ((hash_bucket.sublist_entries_of_bucket_remove hb2).subset he)⟩
    · simp only [List.getElem?_set_ne hj] at hb1
      exact ⟨b1, hb1, fun e he => Or.inl he⟩
  | clear =>
    simp only [step, clear] at h
    split at h
    · simp only [Option.map_eq_some'] at h
      obtain ⟨t, ht, rfl⟩ := h
      obtain ⟨b, hb, hor⟩ := (clear_loop_eq_some _ _ _ _ ht).2 j b1 hb1
      refine ⟨b, hb, fun e he => ?_⟩
      rcases hor with rfl | rfl
      · exact Or.inl he
      · simp [hash_bucket.entries_construct] at he
    · cases h

end hash_map

namespace hash_bucket

open hash_node_ptr

variable {K V : Type}

/-- C12 (find returns the first match), evaluated on the bucket `insert(1, 10)` builds from an
empty one.  `find(1)` meets the node of key 1 and returns its value.  `find(2)`, for a key no
entry has, walks past that node and tests its never-written `next_`: it has no defined result
(the claim says it returns false and leaves `value` as it was). -/
theorem find_absent_key_after_insert :
    (construct : hash_bucket Int Int).insert 1 10 = some ⟨node 1 10 indeterminate⟩ ∧
      (⟨node 1 10 indeterminate⟩ : hash_bucket Int Int).find 1 0 = some (true, 10) ∧
      decide (2 ∈ (⟨node 1 10 indeterminate⟩ : hash_bucket Int Int).keys) = false ∧
      (⟨node 1 10 indeterminate⟩ : hash_bucket Int Int).find 2 0 = none := by
  refine ⟨?_, ?_, ?_, ?_⟩ <;> decide

/-- C13 (insert of an absent key appends at the tail), evaluated on the empty bucket and on the
bucket it gives.  `insert(1, 10)` hangs the new node on `head_->next_`, but the node's own
`next_` is never written: the chain is not the one ending in `nullptr` after the new entry
(the claim says the new entry has no successor).  `insert(2, 20)` on that bucket, for a key no
entry has, walks into this link and has no defined result (the claim says the chain is the old
one followed by the new entry). -/
theorem insert_absent_key_next_unwritten :
    (construct : hash_bucket Int Int).insert 1 10 = some ⟨node 1 10 indeterminate⟩ ∧
      (construct : hash_bucket Int Int).insert 1 10 ≠ some ⟨node 1 10 nullptr⟩ ∧
      decide (2 ∈ (⟨node 1 10 indeterminate⟩ : hash_bucket Int Int).keys) = false ∧
      (⟨node 1 10 indeterminate⟩ : hash_bucket Int Int).insert 2 20 = none := by
  refine ⟨?_, ?_, ?_, ?_⟩ <;> decide

/-- C14 (insert of a present key overwrites in place).  When the bucket has an entry of key
`key`, `insert(key, value)` completes; the entries before the first one of that key and the
entries after it are unchanged, that entry now holds `value`, and so the chain has the same
length and the same keys in the same order. -/
theorem insert_present_overwrites [DecidableEq K] (b : hash_bucket K V) (key : K) (value : V)
    (h : key ∈ b.keys) :
    ∃ b1 pre v0 post, b.insert key value = some b1 ∧
      b.entries = pre ++ (key, v0) :: post ∧ key ∉ pre.map Prod.fst ∧
      b1.entries = pre ++ (key, value) :: post ∧
      b1.entries.length = b.entries.length ∧ b1.keys = b.keys := by
  obtain ⟨pre, v0, post, c1, he, hpre, hins, he1⟩ :=
    hash_node_ptr.insert_of_mem_keys key value b.head_next_ h
  refine ⟨⟨c1⟩, pre, v0, post, ?_, he, hpre, he1, ?_, ?_⟩
  · simp [insert, hins]
  · show c1.entries.length = b.head_next_.entries.length
    rw [he, he1]
    simp
  · show c1.entries.map Prod.fst = b.head_next_.entries.map Prod.fst
    rw [he, he1]
    simp

/-- C14 at a concrete input: the chain of keys 3, 2, 1, 2 and `insert(2, 21)`. -/
theorem insert_present_overwrites_witness :
    (2 : Int) ∈ (⟨node 3 10 (node 2 20 (node 1 30 (node 2 40 indeterminate)))⟩ :
        hash_bucket Int Int).keys ∧
      (⟨node 3 10 (node 2 20 (node 1 30 (node 2 40 indeterminate)))⟩ :
        hash_bucket Int Int).insert 2 21
        = some ⟨node 3 10 (node 2 21 (node 1 30 (node 2 40 indeterminate)))⟩ ∧
      ∃ b1 pre v0 post,
        (⟨node 3 10 (node 2 20 (node 1 30 (node 2 40 indeterminate)))⟩ :
          hash_bucket Int Int).insert 2 21 = some b1 ∧
        (⟨node 3 10 (node 2 20 (node 1 30 (node 2 40 indeterminate)))⟩ :
          hash_bucket Int Int).entries = pre ++ (2, v0) :: post ∧
        (2 : Int) ∉ pre.map Prod.fst ∧
        b1.entries = pre ++ (2, 21) :: post ∧
        b1.entries.length = (⟨node 3 10 (node 2 20 (node 1 30 (node 2 40 indeterminate)))⟩ :
          hash_bucket Int Int).entries.length ∧
        b1.keys = (⟨node 3 10 (node 2 20 (node 1 30 (node 2 40 indeterminate)))⟩ :
          hash_bucket Int Int).keys :=
  ⟨by decide, by decide, insert_present_overwrites _ 2 21 (by decide)⟩

/-- C15 (remove unlinks exactly one entry).  When the bucket has an entry of key `key`,
`remove(key)` completes; the chain afterwards is the old one without its first entry of that
key: the entries before it and after it are unchanged and in the same order, and the length
drops by one. -/
theorem remove_present_unlinks [DecidableEq K] (b : hash_bucket K V) (key : K)
    (h : key ∈ b.keys) :
    ∃ b1 pre v0 post, b.remove key = some b1 ∧
      b.entries = pre ++ (key, v0) :: post ∧ key ∉ pre.map Prod.fst ∧
      b1.entries = pre ++ post ∧ b1.entries.length + 1 = b.entries.length := by
  obtain ⟨pre, v0, post, c1, he, hpre, hrem, he1⟩ :=
    hash_node_ptr.remove_of_mem_keys key b.head_next_ h
  refine ⟨⟨c1⟩, pre, v0, post, ?_, he, hpre, he1, ?_⟩
  · simp [remove, hrem]
  · show c1.entries.length + 1 = b.head_next_.entries.length
    rw [he, he1]
    simp only [List.length_append, List.length_cons]
    omega

/-- C15 at a concrete input: the chain of keys 3, 2, 1, 2 and `remove(2)`. -/
theorem remove_present_unlinks_witness :
    (2 : Int) ∈ (⟨node 3 10 (node 2 20 (node 1 30 (node 2 40 indeterminate)))⟩ :
        hash_bucket Int Int).keys ∧
      (⟨node 3 10 (node 2 20 (node 1 30 (node 2 40 indeterminate)))⟩ :
        hash_bucket Int Int).remove 2
        = some ⟨node 3 10 (node 1 30 (node 2 40 indeterminate))⟩ ∧
      ∃ b1 pre v0 post,
        (⟨node 3 10 (node 2 20 (node 1 30 (node 2 40 indeterminate)))⟩ :
          hash_bucket Int Int).remove 2 = some b1 ∧
        (⟨node 3 10 (node 2 20 (node 1 30 (node 2 40 indeterminate)))⟩ :
          hash_bucket Int Int).entries = pre ++ (2, v0) :: post ∧
        (2 : Int) ∉ pre.map Prod.fst ∧
        b1.entries = pre ++ post ∧
        b1.entries.length + 1
          = (⟨node 3 10 (node 2 20 (node 1 30 (node 2 40 indeterminate)))⟩ :
            hash_bucket Int Int).entries.length :=
  ⟨by decide, by decide, remove_present_unlinks _ 2 (by decide)⟩

end hash_bucket

namespace hash_map

open hash_node_ptr

variable {K V : Type}

/-- C16 as stated fails for `hash_size = 0`: the constructor completes with an empty table,
and `find` on that fresh map evaluates `hash_func_(key) % 0` instead of returning false. -/
theorem find_on_fresh_empty_table :
    ((construct std_hash_int 0 : Option (hash_map Int Int)).map fun m =>
        m.hash_table_.length) = some 0 ∧
      ((construct std_hash_int 0 : Option (hash_map Int Int)).bind fun m =>
        m.find 10 0) = none ∧
      ((construct std_hash_int 0 : Option (hash_map Int Int)).bind fun m =>
        m.find 10 0) ≠ some (false, 0) := by
  refine ⟨?_, ?_, ?_⟩ <;> decide

/-- C16, amended.  For every `hash_size` the `int` loop counter can count, the constructor
completes; the fresh map has `hash_size_ = hash_size` and exactly that many buckets, each with
`head_->next_ == nullptr`; when `hash_size >= 1`, `find` returns false for every key and leaves
`value` as it was.  The default size is 1031, which is in that range. -/
theorem construct_fresh [DecidableEq K] (hash_func : K → Nat) (hash_size : Nat)
    (hle : hash_size ≤ int_max) :
    (hash_size_default = 1031 ∧ hash_size_default ≤ int_max) ∧
      ∃ m0 : hash_map K V, construct hash_func hash_size = some m0 ∧
        m0.hash_size_ = hash_size ∧ m0.hash_table_.length = hash_size ∧
        (∀ b ∈ m0.hash_table_, b.head_next_ = nullptr) ∧
        (1 ≤ hash_size → ∀ (key : K) (value : V), m0.find key value = some (false, value)) := by
  refine ⟨⟨rfl, by decide⟩,
    ⟨List.replicate hash_size hash_bucket.construct, hash_func, hash_size⟩, ?_, rfl, ?_, ?_, ?_⟩
  · simp [construct, hle]
  · simp
  · intro b hb
    rw [List.eq_of_mem_replicate hb]
    rfl
  · intro hpos key value
    have hlt : hash_func key % hash_size < hash_size := Nat.mod_lt _ (by omega)
    have hb : (List.replicate hash_size (hash_bucket.construct : hash_bucket K V))[
        hash_func key % hash_size]? = some hash_bucket.construct :=
      List.getElem?_replicate_of_lt hlt
    rw [find_of_getElem? _ key value hpos hb]
    rfl

/-- C16, amended, at a concrete input: the default size and `std::hash<int>`. -/
theorem construct_fresh_witness :
    1031 ≤ int_max ∧
      (hash_size_default = 1031 ∧ hash_size_default ≤ int_max) ∧
      ∃ m0 : hash_map Int Int, construct std_hash_int 1031 = some m0 ∧
        m0.hash_size_ = 1031 ∧ m0.hash_table_.length = 1031 ∧
        (∀ b ∈ m0.hash_table_, b.head_next_ = nullptr) ∧
        (1 ≤ 1031 → ∀ (key : Int) (value : Int), m0.find key value = some (false, value)) :=
  ⟨by decide, construct_fresh std_hash_int 1031 (by decide)⟩

/-- C18 (other keys are unaffected), evaluated on the fresh default map with keys 10 and 1041,
which share the bucket at subscript 10.  Before `insert(10, 100)`, `find(1041)` returns false;
after it, `find(1041)` walks past the new node and tests its never-written `next_`, so it has
no defined result (the claim says the result of `find` is the same before and after). -/
theorem find_other_key_after_insert :
    ((construct std_hash_int hash_size_default : Option (hash_map Int Int)).bind fun m =>
        m.find 1041 0) = some (false, 0) ∧
      ((construct std_hash_int hash_size_default : Option (hash_map Int Int)).bind fun m =>
        m.insert 10 100).isSome = true ∧
      ((construct std_hash_int hash_size_default : Option (hash_map Int Int)).bind fun m =>
        (m.insert 10 100).bind fun m => m.find 1041 0) = none := by
  refine ⟨?_, ?_, ?_⟩ <;> decide

/-- C19 (refinement of a reference map), evaluated on the fresh default map.  After the one
call `insert(10, 100)` the reference map has no value for key 1041, and `find(1041)` has no
defined result; after `insert(10, 100); remove(10)` the reference map has no value for key
10, and `find(10)` has no defined result; the sequence `insert(10, 100); insert(1041, 7)`,
after which the reference map holds 7 for key 1041, has no defined result itself. -/
theorem refinement_default_map :
    ((construct std_hash_int hash_size_default : Option (hash_map Int Int)).bind fun m =>
        m.run [map_op.insert 10 100]).isSome = true ∧
      ((construct std_hash_int hash_size_default : Option (hash_map Int Int)).bind fun m =>
        (m.run [map_op.insert 10 100]).bind fun m => m.find 1041 0) = none ∧
      (ref_map.run (ref_map.empty : ref_map Int Int) [map_op.insert 10 100]).lookup 1041 0
        = (false, 0) ∧
      ((construct std_hash_int hash_size_default : Option (hash_map Int Int)).bind fun m =>
        m.run [map_op.insert 10 100, map_op.remove 10]).isSome = true ∧
      ((construct std_hash_int hash_size_default : Option (hash_map Int Int)).bind fun m =>
        (m.run [map_op.insert 10 100, map_op.remove 10]).bind fun m => m.find 10 0) = none ∧
      (ref_map.run (ref_map.empty : ref_map Int Int)
        [map_op.insert 10 100, map_op.remove 10]).lookup 10 0 = (false, 0) ∧
      ((construct std_hash_int hash_size_default : Option (hash_map Int Int)).bind fun m =>
        m.run [map_op.insert 10 100, map_op.insert 1041 7]).isNone = true ∧
      (ref_map.run (ref_map.empty : ref_map Int Int)
        [map_op.insert 10 100, map_op.insert 1041 7]).lookup 1041 0 = (true, 7) := by
  refine ⟨?_, ?_, ?_, ?_, ?_, ?_, ?_, ?_⟩ <;> decide

end hash_map

theorem lock_run_append (held : held_locks) (es fs : List (Nat × bucket_event)) :
    lock_run held (es ++ fs) = (lock_run held es).bind fun held1 => lock_run held1 fs := by
  induction es generalizing held with
  | nil => rfl
  | cons e es ih =>
    simp only [List.cons_append, lock_run]
    cases lock_step held e with
    | none => rfl
    | some held1 => exact ih held1

theorem lock_step_length (held held1 : held_locks) (e : Nat × bucket_event)
    (h : lock_step held e = some held1) (hl : held.length ≤ 1) : held1.length ≤ 1 := by
  obtain ⟨i, ev⟩ := e
  cases ev with
  | lock mode =>
    simp only [lock_step] at h
    split at h
    · cases h
      simp
    · cases h
  | unlock =>
    simp only [lock_step] at h
    split at h
    · cases h
      exact Nat.le_trans (List.length_filter_le _ _) hl
    · cases h
  | read =>
    simp only [lock_step] at h
    split at h
    · cases h
      exact hl
    · cases h
  | write =>
    simp only [lock_step] at h
    split at h
    · cases h
      exact hl
    · cases h

theorem lock_run_prefix (held : held_locks) (hl : held.length ≤ 1) :
    ∀ (pre suf : List (Nat × bucket_event)) (held2 : held_locks),
      lock_run held (pre ++ suf) = some held2 →
      ∃ held1, lock_run held pre = some held1 ∧ held1.length ≤ 1 ∧
        lock_run held1 suf = some held2 := by
  intro pre
  induction pre generalizing held with
  | nil =>
    intro suf held2 h
    exact ⟨held, rfl, hl, h⟩
  | cons e es ih =>
    intro suf held2 h
    simp only [List.cons_append, lock_run, Option.bind_eq_some] at h
    obtain ⟨held0, h0, hrest⟩ := h
    obtain ⟨held1, h1, hl1, h2⟩ := ih held0 (lock_step_length held held0 e h0 hl) suf held2 hrest
    exact ⟨held1, by simp [lock_run, h0, h1], hl1, h2⟩

theorem lock_step_read (i : Nat) (mode : lock_mode) :
    lock_step [(i, mode)] (i, bucket_event.read) = some [(i, mode)] := by
  simp [lock_step]

theorem lock_step_write (i : Nat) :
    lock_step [(i, lock_mode.exclusive)] (i, bucket_event.write)
      = some [(i, lock_mode.exclusive)] := by
  simp [lock_step]

theorem lock_step_unlock (i : Nat) (mode : lock_mode) :
    lock_step [(i, mode)] (i, bucket_event.unlock) = some [] := by
  simp [lock_step]

theorem lock_step_lock (i : Nat) (mode : lock_mode) :
    lock_step [] (i, bucket_event.lock mode) = some [(i, mode)] := by
  simp [lock_step]

namespace hash_node_ptr

variable {K V : Type}

theorem lock_run_chain_insert_events [DecidableEq K] (i : Nat) (key : K) (value : V) :
    ∀ c : hash_node_ptr K V,
      lock_run [(i, lock_mode.exclusive)] (hash_map.at_bucket i (insert_events key c))
        = some (if (insert key value c).isSome then [] else [(i, lock_mode.exclusive)])
  | nullptr => by
    simp [insert_events, insert, hash_map.at_bucket, lock_run, lock_step_write,
      lock_step_unlock]
  | indeterminate => by
    simp [insert_events, insert, hash_map.at_bucket, lock_run]
  | node k v nx => by
    by_cases hk : k = key
    · simp [insert_events, insert, hk, hash_map.at_bucket, lock_run, lock_step_write,
        lock_step_unlock, lock_step_read]
    · have ih := lock_run_chain_insert_events i key value nx
      simp only [hash_map.at_bucket] at ih
      simp [insert_events, insert, hk, hash_map.at_bucket, lock_run, lock_step_read, ih]

theorem lock_run_chain_find_events [DecidableEq K] (i : Nat) (mode : lock_mode) (key : K)
    (value : V) :
    ∀ c : hash_node_ptr K V,
      lock_run [(i, mode)] (hash_map.at_bucket i (find_events key c))
        = some (if (find key value c).isSome then [] else [(i, mode)])
  | nullptr => by
    simp [find_events, find, hash_map.at_bucket, lock_run, lock_step_unlock]
  | indeterminate => by
    simp [find_events, find, hash_map.at_bucket, lock_run]
  | node k v nx => by
    by_cases hk : k = key
    · simp [find_events, find, hk, hash_map.at_bucket, lock_run, lock_step_unlock,
        lock_step_read]
    · have ih := lock_run_chain_find_events i mode key value nx
      simp only [hash_map.at_bucket] at ih
      simp [find_events, find, hk, hash_map.at_bucket, lock_run, lock_step_read, ih]

theorem lock_run_chain_remove_events [DecidableEq K] (i : Nat) (key : K) :
    ∀ c : hash_node_ptr K V,
      lock_run [(i, lock_mode.exclusive)] (hash_map.at_bucket i (remove_events key c))
        = some (if (remove key c).isSome then [] else [(i, lock_mode.exclusive)])
  | nullptr => by
    simp [remove_events, remove, hash_map.at_bucket, lock_run, lock_step_unlock]
  | indeterminate => by
    simp [remove_events, remove, hash_map.at_bucket, lock_run]
  | node k v nx => by
    by_cases hk : k = key
    · simp [remove_events, remove, hk, hash_map.at_bucket, lock_run, lock_step_write,
        lock_step_unlock, lock_step_read]
    · have ih := lock_run_chain_remove_events i key nx
      simp only [hash_map.at_bucket] at ih
      simp [remove_events, remove, hk, hash_map.at_bucket, lock_run, lock_step_read, ih]

theorem lock_run_chain_clear_events (i : Nat) :
    ∀ c : hash_node_ptr K V,
      lock_run [(i, lock_mode.exclusive)] (hash_map.at_bucket i (clear_events c))
        = some (if (clear c).isSome then [] else [(i, lock_mode.exclusive)])
  | nullptr => by
    simp [clear_events, clear, hash_map.at_bucket, lock_run, lock_step_unlock]
  | indeterminate => by
    simp [clear_events, clear, hash_map.at_bucket, lock_run]
  | node k v nx => by
    have ih := lock_run_chain_clear_events i nx
    simp only [hash_map.at_bucket] at ih
    simp [clear_events, clear, hash_map.at_bucket, lock_run, lock_step_read, lock_step_write,
      ih]

theorem insert_events_ne_lock [DecidableEq K] (key : K) (mode : lock_mode) :
    ∀ c : hash_node_ptr K V, bucket_event.lock mode ∉ insert_events key c
  | nullptr => by simp [insert_events]
  | indeterminate => by simp [insert_events]
  | node k v nx => by
    have ih := insert_events_ne_lock key mode nx
    by_cases hk : k = key <;> simp [insert_events, hk, ih]

theorem find_events_ne_lock [DecidableEq K] (key : K) (mode : lock_mode) :
    ∀ c : hash_node_ptr K V, bucket_event.lock mode ∉ find_events key c
  | nullptr => by simp [find_events]
  | indeterminate => by simp [find_events]
  | node k v nx => by
    have ih := find_events_ne_lock key mode nx
    by_cases hk : k = key <;> simp [find_events, hk, ih]

theorem remove_events_ne_lock [DecidableEq K] (key : K) (mode : lock_mode) :
    ∀ c : hash_node_ptr K V, bucket_event.lock mode ∉ remove_events key c
  | nullptr => by simp [remove_events]
  | indeterminate => by simp [remove_events]
  | node k v nx => by
    have ih := remove_events_ne_lock key mode nx
    by_cases hk : k = key <;> simp [remove_events, hk, ih]

theorem clear_events_ne_lock (mode : lock_mode) :
    ∀ c : hash_node_ptr K V, bucket_event.lock mode ∉ clear_events c
  | nullptr => by simp [clear_events]
  | indeterminate => by simp [clear_events]
  | node k v nx => by
    have ih := clear_events_ne_lock mode nx
    simp [clear_events, ih]

end hash_node_ptr

namespace hash_bucket

variable {K V : Type}

theorem lock_run_bucket_insert_events [DecidableEq K] (i : Nat) (b : hash_bucket K V)
    (key : K) (value : V) :
    lock_run [] (hash_map.at_bucket i (b.insert_events key))
      = some (if (b.insert key value).isSome then [] else [(i, lock_mode.exclusive)]) := by
  have h := hash_node_ptr.lock_run_chain_insert_events i key value b.head_next_
  simp only [hash_map.at_bucket] at h
  simp [insert_events, insert, hash_map.at_bucket, lock_run, lock_step_lock, lock_step_read, h]

theorem lock_run_bucket_find_events [DecidableEq K] (i : Nat) (b : hash_bucket K V)
    (key : K) (value : V) :
    lock_run [] (hash_map.at_bucket i (b.find_events key))
      = some (if (b.find key value).isSome then [] else [(i, lock_mode.shared)]) := by
  have h := hash_node_ptr.lock_run_chain_find_events i lock_mode.shared key value b.head_next_
  simp only [hash_map.at_bucket] at h
  simp [find_events, find, hash_map.at_bucket, lock_run, lock_step_lock, lock_step_read, h]

theorem lock_run_bucket_remove_events [DecidableEq K] (i : Nat) (b : hash_bucket K V)
    (key : K) :
    lock_run [] (hash_map.at_bucket i (b.remove_events key))
      = some (if (b.remove key).isSome then [] else [(i, lock_mode.exclusive)]) := by
  have h := hash_node_ptr.lock_run_chain_remove_events i key b.head_next_
  simp only [hash_map.at_bucket] at h
  simp [remove_events, remove, hash_map.at_bucket, lock_run, lock_step_lock, lock_step_read, h]

theorem lock_run_bucket_clear_events (i : Nat) (b : hash_bucket K V) :
    lock_run [] (hash_map.at_bucket i b.clear_events)
      = some (if b.clear.isSome then [] else [(i, lock_mode.exclusive)]) := by
  have h := hash_node_ptr.lock_run_chain_clear_events i b.head_next_
  simp only [hash_map.at_bucket] at h
  simp [clear_events, clear, hash_map.at_bucket, lock_run, lock_step_lock, lock_step_read, h]

theorem mode_of_mem_insert_events [DecidableEq K] (b : hash_bucket K V) (key : K)
    (mode : lock_mode) (h : bucket_event.lock mode ∈ b.insert_events key) :
    mode = lock_mode.exclusive := by
  simp only [insert_events, List.mem_cons, bucket_event.lock.injEq] at h
  rcases h with h | h | h
  · exact h
  · cases h
  · exact absurd h (hash_node_ptr.insert_events_ne_lock key mode _)

theorem mode_of_mem_find_events [DecidableEq K] (b : hash_bucket K V) (key : K)
    (mode : lock_mode) (h : bucket_event.lock mode ∈ b.find_events key) :
    mode = lock_mode.shared := by
  simp only [find_events, List.mem_cons, bucket_event.lock.injEq] at h
  rcases h with h | h | h
  · exact h
  · cases h
  · exact absurd h (hash_node_ptr.find_events_ne_lock key mode _)

theorem mode_of_mem_remove_events [DecidableEq K] (b : hash_bucket K V) (key : K)
    (mode : lock_mode) (h : bucket_event.lock mode ∈ b.remove_events key) :
    mode = lock_mode.exclusive := by
  simp only [remove_events, List.mem_cons, bucket_event.lock.injEq] at h
  rcases h with h | h | h
  · exact h
  · cases h
  · exact absurd h (hash_node_ptr.remove_events_ne_lock key mode _)

theorem mode_of_mem_clear_events (b : hash_bucket K V)
    (mode : lock_mode) (h : bucket_event.lock mode ∈ b.clear_events) :
    mode = lock_mode.exclusive := by
  simp only [clear_events, List.mem_cons, bucket_event.lock.injEq] at h
  rcases h with h | h | h
  · exact h
  · cases h
  · exact absurd h (hash_node_ptr.clear_events_ne_lock mode _)

end hash_bucket

namespace hash_map

variable {K V : Type}

theorem mem_at_bucket {i : Nat} {es : List bucket_event} {e : Nat × bucket_event}
    (h : e ∈ at_bucket i es) : e.1 = i ∧ e.2 ∈ es := by
  simp only [at_bucket, List.mem_map] at h
  obtain ⟨ev, hev, rfl⟩ := h
  exact ⟨rfl, hev⟩

theorem lock_run_insert_events [DecidableEq K] (m : hash_map K V) (key : K) (value : V) :
    ∃ held, lock_run [] (m.insert_events key) = some held ∧
      ((m.insert key value).isSome = true → held = []) := by
  cases hv : m.hash_value key with
  | none => exact ⟨[], by simp [insert_events, hv, lock_run], by simp [insert, hv]⟩
  | some i =>
    cases hb : m.hash_table_[i]? with
    | none => exact ⟨[], by simp [insert_events, hv, hb, lock_run], by simp [insert, hv, hb]⟩
    | some b =>
      refine ⟨if (b.insert key value).isSome then [] else [(i, lock_mode.exclusive)], ?_, ?_⟩
      · simp only [insert_events, hv, hb]
        exact hash_bucket.lock_run_bucket_insert_events i b key value
      · simp only [insert, hv, hb, Option.some_bind, Option.isSome_map']
        intro h
        rw [if_pos h]

theorem lock_run_find_events [DecidableEq K] (m : hash_map K V) (key : K) (value : V) :
    ∃ held, lock_run [] (m.find_events key) = some held ∧
      ((m.find key value).isSome = true → held = []) := by
  cases hv : m.hash_value key with
  | none => exact ⟨[], by simp [find_events, hv, lock_run], by simp [find, hv]⟩
  | some i =>
    cases hb : m.hash_table_[i]? with
    | none => exact ⟨[], by simp [find_events, hv, hb, lock_run], by simp [find, hv, hb]⟩
    | some b =>
      refine ⟨if (b.find key value).isSome then [] else [(i, lock_mode.shared)], ?_, ?_⟩
      · simp only [find_events, hv, hb]
        exact hash_bucket.lock_run_bucket_find_events i b key value
      · simp only [find, hv, hb, Option.some_bind]
        intro h
        rw [if_pos h]

theorem lock_run_remove_events [DecidableEq K] (m : hash_map K V) (key : K) :
    ∃ held, lock_run [] (m.remove_events key) = some held ∧
      ((m.remove key).isSome = true → held = []) := by
  cases hv : m.hash_value key with
  | none => exact ⟨[], by simp [remove_events, hv, lock_run], by simp [remove, hv]⟩
  | some i =>
    cases hb : m.hash_table_[i]? with
    | none => exact ⟨[], by simp [remove_events, hv, hb, lock_run], by simp [remove, hv, hb]⟩
    | some b =>
      refine ⟨if (b.remove key).isSome then [] else [(i, lock_mode.exclusive)], ?_, ?_⟩
      · simp only [remove_events, hv, hb]
        exact hash_bucket.lock_run_bucket_remove_events i b key
      · simp only [remove, hv, hb, Option.some_bind, Option.isSome_map']
        intro h
        rw [if_pos h]

theorem lock_run_clear_loop_events :
    ∀ (n i : Nat) (t : List (hash_bucket K V)),
      ∃ held, lock_run [] (clear_loop_events n i t) = some held ∧
        ((clear_loop n i t).isSome = true → held = [])
  | 0, i, t => ⟨[], rfl, fun _ => rfl⟩
  | n + 1, i, t => by
    cases hb : t[i]? with
    | none => exact ⟨[], by simp [clear_loop_events, hb, lock_run], by simp [clear_loop, hb]⟩
    | some b =>
      have hrun := hash_bucket.lock_run_bucket_clear_events i b
      cases hc : b.clear with
      | none =>
        refine ⟨[(i, lock_mode.exclusive)], ?_, by simp [clear_loop, hb, hc]⟩
        simp only [clear_loop_events, hb, hc, List.append_nil]
        rw [hrun, hc]
        rfl
      | some b1 =>
        obtain ⟨held, hheld, hdone⟩ := lock_run_clear_loop_events n (i + 1) (t.set i b1)
        refine ⟨held, ?_, fun h => hdone (by simpa [clear_loop, hb, hc] using h)⟩
        simp only [clear_loop_events, hb, hc]
        rw [lock_run_append, hrun, hc]
        exact hheld

theorem lock_run_clear_events (m : hash_map K V) :
    ∃ held, lock_run [] m.clear_events = some held ∧ (m.clear.isSome = true → held = []) := by
  obtain ⟨held, hheld, hdone⟩ :=
    lock_run_clear_loop_events (min m.hash_size_ (int_max + 1)) 0 m.hash_table_
  refine ⟨held, hheld, fun h => hdone ?_⟩
  unfold clear at h
  split at h
  · rename_i hle
    rw [Option.isSome_map'] at h
    rwa [Nat.min_eq_left (by omega)]
  · cases h

theorem mode_of_mem_map_insert_events [DecidableEq K] (m : hash_map K V) (key : K)
    (e : Nat × bucket_event) (mode : lock_mode) (he : e ∈ m.insert_events key)
    (hm : e.2 = bucket_event.lock mode) : mode = lock_mode.exclusive := by
  unfold insert_events at he
  split at he
  · cases he
  · split at he
    · cases he
    · rename_i b _
      exact hash_bucket.mode_of_mem_insert_events b key mode (hm ▸ (mem_at_bucket he).2)

theorem mode_of_mem_map_find_events [DecidableEq K] (m : hash_map K V) (key : K)
    (e : Nat × bucket_event) (mode : lock_mode) (he : e ∈ m.find_events key)
    (hm : e.2 = bucket_event.lock mode) : mode = lock_mode.shared := by
  unfold find_events at he
  split at he
  · cases he
  · split at he
    · cases he
    · rename_i b _
      exact hash_bucket.mode_of_mem_find_events b key mode (hm ▸ (mem_at_bucket he).2)

theorem mode_of_mem_map_remove_events [DecidableEq K] (m : hash_map K V) (key : K)
    (e : Nat × bucket_event) (mode : lock_mode) (he : e ∈ m.remove_events key)
    (hm : e.2 = bucket_event.lock mode) : mode = lock_mode.exclusive := by
  unfold remove_events at he
  split at he
  · cases he
  · split at he
    · cases he
    · rename_i b _
      exact hash_bucket.mode_of_mem_remove_events b key mode (hm ▸ (mem_at_bucket he).2)

theorem mode_of_mem_clear_loop_events (mode : lock_mode) :
    ∀ (n i : Nat) (t : List (hash_bucket K V)) (e : Nat × bucket_event),
      e ∈ clear_loop_events n i t → e.2 = bucket_event.lock mode → mode = lock_mode.exclusive
  | 0, i, t, e, he, _ => by simp [clear_loop_events] at he
  | n + 1, i, t, e, he, hm => by
    unfold clear_loop_events at he
    split at he
    · cases he
    · rename_i b _
      rcases List.mem_append.mp he with h1 | h1
      · exact hash_bucket.mode_of_mem_clear_events b mode (hm ▸ (mem_at_bucket h1).2)
      · split at h1
        · cases h1
        · exact mode_of_mem_clear_loop_events mode n (i + 1) _ e h1 hm

end hash_map

theorem not_deadlocked_of_lock_run (ts : List thread)
    (h : ∀ t ∈ ts, (lock_run t.held t.todo).isSome = true) : ¬ deadlocked ts := by
  rintro ⟨s, hs, hall⟩
  obtain ⟨n, hn⟩ := List.exists_mem_of_ne_nil s hs
  obtain ⟨n1, hn1, _, _, t1, _, _, _, holder, _, ht1, _, hheld, _⟩ := hall n hn
  obtain ⟨_, _, _, t2, _, i2, wanted2, rest2, _, ht2, _, htodo, _, _⟩ := hall n1 hn1
  rw [ht1] at ht2
  cases ht2
  have hrun := h t1 (List.mem_iff_getElem?.mpr ⟨n1, ht1⟩)
  rw [htodo] at hrun
  have hne : t1.held ≠ [] := List.ne_nil_of_mem hheld
  simp [lock_run, lock_step, hne] at hrun

namespace hash_map

open hash_node_ptr

variable {K V : Type}

/-- C11 (lock discipline).  For every map and every key, the events of `insert`, `find`,
`remove` and `clear` keep the lock discipline from a start with no lock held: the chain of a
bucket is read only while that bucket's mutex is held and written only while it is held
exclusively, a mutex is acquired only while no lock is held, and a call that returns has
released its lock.  `insert`, `remove` and `clear` acquire exclusively, `find` acquires shared.
At every point of a sequence of events that keeps the discipline at most one lock is held, and
the rest of the sequence keeps the discipline from there.  Threads whose pending events keep
the discipline never deadlock: no set of threads exists in which each waits for a lock held by
another of the set. -/
theorem lock_discipline [DecidableEq K] (m : hash_map K V) (key : K) (value : V) :
    (∃ held, lock_run [] (m.insert_events key) = some held ∧
        ((m.insert key value).isSome = true → held = [])) ∧
      (∀ e ∈ m.insert_events key, ∀ mode, e.2 = bucket_event.lock mode →
        mode = lock_mode.exclusive) ∧
      (∃ held, lock_run [] (m.find_events key) = some held ∧
        ((m.find key value).isSome = true → held = [])) ∧
      (∀ e ∈ m.find_events key, ∀ mode, e.2 = bucket_event.lock mode →
        mode = lock_mode.shared) ∧
      (∃ held, lock_run [] (m.remove_events key) = some held ∧
        ((m.remove key).isSome = true → held = [])) ∧
      (∀ e ∈ m.remove_events key, ∀ mode, e.2 = bucket_event.lock mode →
        mode = lock_mode.exclusive) ∧
      (∃ held, lock_run [] m.clear_events = some held ∧
        (m.clear.isSome = true → held = [])) ∧
      (∀ e ∈ m.clear_events, ∀ mode, e.2 = bucket_event.lock mode →
        mode = lock_mode.exclusive) ∧
      (∀ (es pre suf : List (Nat × bucket_event)) (held : held_locks),
        lock_run [] es = some held → es = pre ++ suf →
          ∃ held1, lock_run [] pre = some held1 ∧ held1.length ≤ 1 ∧
            lock_run held1 suf = some held) ∧
      (∀ ts : List thread, (∀ t ∈ ts, (lock_run t.held t.todo).isSome = true) →
        ¬ deadlocked ts) := by
  refine ⟨lock_run_insert_events m key value,
    fun e he mode hm => mode_of_mem_map_insert_events m key e mode he hm,
    lock_run_find_events m key value,
    fun e he mode hm => mode_of_mem_map_find_events m key e mode he hm,
    lock_run_remove_events m key,
    fun e he mode hm => mode_of_mem_map_remove_events m key e mode he hm,
    lock_run_clear_events m,
    fun e he mode hm => mode_of_mem_clear_loop_events mode _ _ _ e he hm,
    ?_, not_deadlocked_of_lock_run⟩
  intro es pre suf held hrun heq
  subst heq
  exact lock_run_prefix [] (by simp) pre suf held hrun

/-- C11 at a concrete input: a table of three buckets, the second with a chain of two nodes
that ends in `nullptr`.  The events of `clear` are listed; the discipline is kept and no lock
is held at the end.  Sequences that break the discipline are told apart: a second mutex
acquired while one is held, a write under a shared lock, a read of another bucket's chain, a
write without a lock.  Of two threads, one in the middle of `clear` holding the mutex of bucket
1 and one about to start a `find` on bucket 1, the second waits for the first, and the two are
not deadlocked. -/
theorem lock_discipline_witness :
    clear_events (⟨[⟨nullptr⟩, ⟨node 1 11 (node 4 40 nullptr)⟩, ⟨nullptr⟩], std_hash_int, 3⟩ :
        hash_map Int Int)
      = [(0, bucket_event.lock lock_mode.exclusive), (0, bucket_event.read),
          (0, bucket_event.unlock),
          (1, bucket_event.lock lock_mode.exclusive), (1, bucket_event.read),
          (1, bucket_event.read), (1, bucket_event.write), (1, bucket_event.write),
          (1, bucket_event.read),
          (1, bucket_event.read), (1, bucket_event.write), (1, bucket_event.write),
          (1, bucket_event.read), (1, bucket_event.unlock),
          (2, bucket_event.lock lock_mode.exclusive), (2, bucket_event.read),
          (2, bucket_event.unlock)] ∧
      lock_run [] (clear_events (⟨[⟨nullptr⟩, ⟨node 1 11 (node 4 40 nullptr)⟩, ⟨nullptr⟩],
        std_hash_int, 3⟩ : hash_map Int Int)) = some [] ∧
      (∃ held, lock_run [] (clear_events (⟨[⟨nullptr⟩, ⟨node 1 11 (node 4 40 nullptr)⟩,
          ⟨nullptr⟩], std_hash_int, 3⟩ : hash_map Int Int)) = some held ∧
        ((clear (⟨[⟨nullptr⟩, ⟨node 1 11 (node 4 40 nullptr)⟩, ⟨nullptr⟩],
          std_hash_int, 3⟩ : hash_map Int Int)).isSome = true → held = [])) ∧
      lock_run [] [(0, bucket_event.lock lock_mode.exclusive),
        (1, bucket_event.lock lock_mode.exclusive)] = none ∧
      lock_run [] [(0, bucket_event.lock lock_mode.shared), (0, bucket_event.write)] = none ∧
      lock_run [] [(0, bucket_event.lock lock_mode.exclusive), (1, bucket_event.read)]
        = none ∧
      lock_run [] [(0, bucket_event.write)] = none ∧
      blocked_by
        [⟨[(1, lock_mode.exclusive)],
            [(1, bucket_event.read), (1, bucket_event.unlock),
              (2, bucket_event.lock lock_mode.exclusive), (2, bucket_event.read),
              (2, bucket_event.unlock)]⟩,
          ⟨[], [(1, bucket_event.lock lock_mode.shared), (1, bucket_event.read),
            (1, bucket_event.unlock)]⟩] 1 0 ∧
      ¬ deadlocked
        [⟨[(1, lock_mode.exclusive)],
            [(1, bucket_event.read), (1, bucket_event.unlock),
              (2, bucket_event.lock lock_mode.exclusive), (2, bucket_event.read),
              (2, bucket_event.unlock)]⟩,
          ⟨[], [(1, bucket_event.lock lock_mode.shared), (1, bucket_event.read),
            (1, bucket_event.unlock)]⟩] :=
  ⟨by decide, by decide,
    (lock_discipline (⟨[⟨nullptr⟩, ⟨node 1 11 (node 4 40 nullptr)⟩, ⟨nullptr⟩],
      std_hash_int, 3⟩ : hash_map Int Int) 4 0).2.2.2.2.2.2.1,
    by decide, by decide, by decide, by decide,
    ⟨by decide, _, _, 1, lock_mode.shared, _, lock_mode.exclusive, rfl, rfl, rfl,
      List.mem_singleton.mpr rfl, rfl⟩,
    (lock_discipline (⟨[⟨nullptr⟩, ⟨node 1 11 (node 4 40 nullptr)⟩, ⟨nullptr⟩],
      std_hash_int, 3⟩ : hash_map Int Int) 4 0).2.2.2.2.2.2.2.2.2 _ (by decide)⟩

/-- C17 (placement invariant), evaluated on the default map.  After `insert(5, 50)` bucket 5
holds one node whose `next_` was never written.  After `insert(5, 50); remove(5)`, two calls
that return, `head_->next_` of bucket 5 is that never-written link: which nodes the chain of
bucket 5 holds is no longer determined.  The sequence `insert(5, 50); insert(1036, 60)`, whose
keys share bucket 5, has no defined result at its second call, and so has none when
`remove(5); insert(107, 70)` follow (the claim says every state so reached keeps each entry in
the bucket of its key). -/
theorem placement_after_unwritten_link :
    (((construct std_hash_int hash_size_default : Option (hash_map Int Int)).bind fun m =>
        m.run [map_op.insert 5 50]).map fun m => m.hash_table_[5]?)
        = some (some ⟨node 5 50 indeterminate⟩) ∧
      (((construct std_hash_int hash_size_default : Option (hash_map Int Int)).bind fun m =>
        m.run [map_op.insert 5 50, map_op.remove 5]).map fun m => m.hash_table_[5]?)
        = some (some ⟨indeterminate⟩) ∧
      std_hash_int 1036 % hash_size_default = 5 ∧
      ((construct std_hash_int hash_size_default : Option (hash_map Int Int)).bind fun m =>
        m.run [map_op.insert 5 50, map_op.insert 1036 60]).isNone = true ∧
      ((construct std_hash_int hash_size_default : Option (hash_map Int Int)).bind fun m =>
        m.run [map_op.insert 5 50, map_op.insert 1036 60, map_op.remove 5,
          map_op.insert 107 70]).isNone = true := by
  refine ⟨?_, ?_, ?_, ?_, ?_⟩ <;> decide

end hash_map

end chm
